import Mathlib

/-!
# DHT-Practice: a shallow embedding of `DHT.go`

The Go program keeps, for every `Peer`, a routing table `KBucket` of 160
buckets, each an ordered slice of `Peer` values.  Stored keys are kept as
pseudo-contacts of that same table.

Modelling decisions:

* `[]byte` and `string` are both `List Byte`; the conversions `[]byte(s)`
  and `string(b)` are the identity on byte sequences.
* a `[]byte` result that may be `nil` is an `Option (List Byte)`
  (`none` is `nil`; Go's `[]byte(s)` is never `nil`).
* the one-field structs `Bucket` (`Nodes []Peer`) and `KBucket`
  (`Buckets [160]Bucket`) are identified with their field, so a table is a
  function `Fin 160 → List Peer`.
* the operations are modelled on values first: a table gives, per bucket,
  the list of contacts its slice shows, and a call on a copy of a `Peer`
  (`for _, p := range ps`, `append(xs, p)`) leaves the table of the
  original as it is.  In Go the copy shares the backing arrays of its
  bucket slices with the original, so an `append` through a copy can write
  a cell that another table shows; the value model leaves those writes
  out.  They are modelled at the slice level (`Slice`, `HPeer`, `Heap`),
  where the rule against duplicate NodeIDs is examined.
* `crypto/sha1` is transcribed from FIPS 180-4 (`sha1`), on 32-bit words
  held in `Nat` with explicit `% 2^32`.
* `math/rand` is a stream of naturals (`Rand`) threaded through the calls;
  `rand.Intn n` takes the head of the stream modulo `n`.
* recursion of the program that is not structural (`Peer.SetValue`,
  `Peer.GetValue`, `KBucket.findNode`) carries a fuel argument; `none`
  means the fuel ran out (or, for `findClosestPeers`, a run-time panic).
-/

namespace DHT

/-! ## Bytes and SHA-1 -/

abbrev Byte := UInt8

/-- Rotate a 32-bit word left by `n` bits. -/
def rotl32 (x n : Nat) : Nat := ((x <<< n) ||| (x >>> (32 - n))) % 2^32

/-- The `n` low-order bytes of `x`, most significant first. -/
def beBytes : Nat → Nat → List Byte
  | 0, _ => []
  | n+1, x => UInt8.ofNat (x >>> (8 * n)) :: beBytes n x

/-- SHA-1 padding: a `0x80` byte, zeros up to 56 mod 64, and the bit length
as a 64-bit big-endian integer. -/
def pad (data : List Byte) : List Byte :=
  let l := data.length
  data ++ [0x80] ++ List.replicate ((119 - l % 64) % 64) 0 ++ beBytes 8 ((8 * l) % 2^64)

/-- Big-endian value of a byte sequence. -/
def beWord (bs : List Byte) : Nat := bs.foldl (fun acc b => acc * 256 + b.toNat) 0

/-- The first `n` big-endian 32-bit words of a block. -/
def words16 : Nat → List Byte → List Nat
  | 0, _ => []
  | n+1, bs => beWord (bs.take 4) :: words16 n (bs.drop 4)

/-- The word `w[t-3] ^ w[t-8] ^ w[t-14] ^ w[t-16]` of a schedule kept most
recent word first (`w[t-1]` is the head). -/
def window : List Nat → Nat
  | _ :: _ :: w3 :: _ :: _ :: _ :: _ :: w8 :: _ :: _ :: _ :: _ :: _ :: w14 :: _ :: w16 :: _ =>
    w3 ^^^ w8 ^^^ w14 ^^^ w16
  | _ => 0

/-- Message schedule, most recent word first: `n` more words are added. -/
def extend : Nat → List Nat → List Nat
  | 0, ws => ws
  | n+1, ws => extend n (rotl32 (window ws) 1 :: ws)

/-- The five working variables (and the chaining value) of SHA-1. -/
structure Sha1State where
  a : Nat
  b : Nat
  c : Nat
  d : Nat
  e : Nat

/-- Round `t` of the compression function on schedule word `w`. -/
def sha1Round (t : Nat) (s : Sha1State) (w : Nat) : Sha1State :=
  let f := if t < 20 then (s.b &&& s.c) ||| ((s.b ^^^ (2^32-1)) &&& s.d)
           else if t < 40 then s.b ^^^ s.c ^^^ s.d
           else if t < 60 then (s.b &&& s.c) ||| (s.b &&& s.d) ||| (s.c &&& s.d)
           else s.b ^^^ s.c ^^^ s.d
  let k := if t < 20 then 0x5A827999 else if t < 40 then 0x6ED9EBA1
           else if t < 60 then 0x8F1BBCDC else 0xCA62C1D6
  { a := (rotl32 s.a 5 + f + s.e + k + w) % 2^32, b := s.a, c := rotl32 s.b 30,
    d := s.c, e := s.d }

/-- All rounds over the schedule, starting at round `t`. -/
def sha1Rounds : Nat → Sha1State → List Nat → Sha1State
  | _, s, [] => s
  | t, s, w :: ws => sha1Rounds (t+1) (sha1Round t s w) ws

/-- Compression of one 64-byte block into the chaining value `h`. -/
def sha1Block (h : Sha1State) (bs : List Byte) : Sha1State :=
  let w := (extend 64 (words16 16 bs).reverse).reverse
  let s := sha1Rounds 0 h w
  { a := (h.a + s.a) % 2^32, b := (h.b + s.b) % 2^32, c := (h.c + s.c) % 2^32,
    d := (h.d + s.d) % 2^32, e := (h.e + s.e) % 2^32 }

/-- Compression of the first `n` 64-byte blocks. -/
def sha1Blocks : Nat → Sha1State → List Byte → Sha1State
  | 0, h, _ => h
  | n+1, h, bs => sha1Blocks n (sha1Block h (bs.take 64)) (bs.drop 64)

/-- The SHA-1 digest (`crypto/sha1`): 20 bytes. -/
@[irreducible]
def sha1 (data : List Byte) : List Byte :=
  let p := pad data
  let h := sha1Blocks (p.length / 64)
    ⟨0x67452301, 0xEFCDAB89, 0x98BADCFE, 0x10325476, 0xC3D2E1F0⟩ p
  beBytes 4 h.a ++ beBytes 4 h.b ++ beBytes 4 h.c ++ beBytes 4 h.d ++ beBytes 4 h.e

/-- Go: `func hash(data []byte) KeyHash`. -/
def hash (data : List Byte) : List Byte := sha1 data

/-- Go: `func getBucketIndex(nodeID []byte) int`: the XOR of the digest's
bytes, reduced modulo 160. -/
def getBucketIndex (nodeID : List Byte) : Nat :=
  ((hash nodeID).foldl (fun index d => index ^^^ d.toNat) 0) % 160

/-! ## Data model -/

/-- Go: `type Peer struct { NodeID string; KBucket KBucket }`, with
`KBucket` a `[160]Bucket` and `Bucket` a `[]Peer`. -/
inductive Peer where
  | mk (NodeID : List Byte) (KBucket : Fin 160 → List Peer) : Peer

/-- Go: `type Bucket struct { Nodes []Peer }`. -/
abbrev Bucket := List Peer

/-- Go: `type KBucket struct { Buckets [160]Bucket }`. -/
abbrev KBucket := Fin 160 → Bucket

/-- Field `NodeID` of a peer. -/
def Peer.NodeID : Peer → List Byte
  | .mk n _ => n

/-- Field `KBucket` of a peer. -/
def Peer.KBucket : Peer → KBucket
  | .mk _ kb => kb

/-- The zero value `KBucket{}`: 160 nil slices. -/
def KBucket.empty : KBucket := fun _ => []

/-- The zero value `Peer{}`. -/
def Peer.zero : Peer := .mk [] KBucket.empty

/-- The index `getBucketIndex nodeID` as an in-range index of the array. -/
def bucketOf (nodeID : List Byte) : Fin 160 :=
  ⟨getBucketIndex nodeID, by unfold getBucketIndex; omega⟩

/-- Every contact of a table, bucket 0 first, each bucket in order: the
order of the nested `range` loops of `KBucket.GetValue`. -/
def KBucket.allNodes (kb : KBucket) : List Peer :=
  (List.finRange 160).flatMap kb

/-! ## Randomness -/

/-- The outcomes still to be drawn from `math/rand`. -/
abbrev Rand := Nat → Nat

/-- Go: `rand.Intn(n)` for `n > 0`: a value in `[0, n)` and the rest of the
stream. -/
def Intn (n : Nat) (g : Rand) : Nat × Rand := (g 0 % n, fun i => g (i + 1))

/-! ## Routing table operations -/

/-- Go: `func (kb *KBucket) insertNode(peer Peer)`. -/
def KBucket.insertNode (kb : KBucket) (peer : Peer) : KBucket :=
  let index := bucketOf peer.NodeID
  let bucket := kb index
  if bucket.any (fun node => node.NodeID == peer.NodeID) then kb
  else if bucket.length < 100 then Function.update kb index (bucket ++ [peer])
  else Function.update kb index (bucket.drop 1 ++ [peer])

/-- Go: `func (kb *KBucket) SetValue(key, value []byte)`. -/
def KBucket.SetValue (kb : KBucket) (key _value : List Byte) : KBucket :=
  Function.update kb (bucketOf key) (kb (bucketOf key) ++ [Peer.mk key KBucket.empty])

/-- Go: `func (kb *KBucket) GetValue(key []byte) []byte`. -/
def KBucket.GetValue (kb : KBucket) (key : List Byte) : Option (List Byte) :=
  (kb.allNodes.find? (fun peer => peer.NodeID == key)).map Peer.NodeID

/-- Bucket `j` of the table for a Go `int` index, `none` when the index is
out of range (a run-time panic). -/
def KBucket.at? (kb : KBucket) (j : Int) : Option Bucket :=
  if h : 0 ≤ j ∧ j < 160 then some (kb ⟨j.toNat, by omega⟩) else none

/-- The `for i := 1; i < count; i++` loop of `findClosestPeers`, with
`todo` iterations left from offset `i`. -/
def closestLoop (kb : KBucket) (bucketIndex count : Int) :
    Nat → Int → List Peer → Option (List Peer)
  | 0, _, closestPeers => some closestPeers
  | todo+1, i, closestPeers =>
    match kb.at? (Int.tmod (bucketIndex - i + 160) 160),
          kb.at? (Int.tmod (bucketIndex + i) 160) with
    | some prevBucket, some nextBucket =>
      let closestPeers := closestPeers ++ prevBucket ++ nextBucket
      if (closestPeers.length : Int) ≥ count then some closestPeers
      else closestLoop kb bucketIndex count todo (i + 1) closestPeers
    | _, _ => none

/-- Go: `func (kb *KBucket) findClosestPeers(key []byte, count int) []Peer`.
`none` is a panic.  The slice is made with capacity `count` over a zeroed
array, so `closestPeers[:count]` on a shorter slice pads with `Peer{}`. -/
def KBucket.findClosestPeers (kb : KBucket) (key : List Byte) (count : Int) :
    Option (List Peer) :=
  if count < 0 then none
  else
    let bucketIndex : Int := getBucketIndex key
    let closestPeers := kb (bucketOf key)
    let collected :=
      if (closestPeers.length : Int) < count then
        closestLoop kb bucketIndex count (count.toNat - 1) 1 closestPeers
      else some closestPeers
    collected.map fun cs =>
      (cs ++ List.replicate (count.toNat - cs.length) Peer.zero).take count.toNat

/-- The two probes of `findNode` (`for i := 0; i < 2; i++`), `todo` of them
left; `find` is the recursive call. -/
def probeLoop (find : List Byte → Rand → Option ((List Peer × Bool) × Rand))
    (kb : KBucket) : Nat → List Peer → Rand → Option (List Peer × Rand)
  | 0, closestPeers, g => some (closestPeers, g)
  | todo+1, closestPeers, g =>
    let r := Intn 160 g
    let randomBucket := kb ⟨r.1, Nat.mod_lt _ (by decide)⟩
    if h : randomBucket.length > 0 then
      let j := Intn randomBucket.length r.2
      let randomNode := randomBucket.get ⟨j.1, Nat.mod_lt _ h⟩
      match find randomNode.NodeID j.2 with
      | none => none
      | some ((peers, found), g') =>
        probeLoop find kb todo (if found then closestPeers ++ peers else closestPeers) g'
    else probeLoop find kb todo closestPeers r.2

/-- Go: `func (kb *KBucket) findNode(key []byte) ([]Peer, bool)`. -/
def KBucket.findNode : Nat → KBucket → List Byte → Rand →
    Option ((List Peer × Bool) × Rand)
  | 0, _, _, _ => none
  | fuel+1, kb, key, g =>
    match (kb (bucketOf key)).find? (fun peer => peer.NodeID == key) with
    | some peer => some (([peer], true), g)
    | none =>
      (probeLoop (fun k g' => KBucket.findNode fuel kb k g') kb 2 [] g).map
        fun res => ((res.1, false), res.2)

/-! ## Peer operations -/

/-- The replication loop of `Peer.SetValue` in the value model: `set` is
the recursive call on a copy of each selected peer; the copy is dropped
after the call.  What the call writes into a backing array shared with
another table is kept by `hStoreLoop` at the slice level. -/
def storeLoop (set : Peer → Option (Bool × Peer)) : List Peer → Option Unit
  | [] => some ()
  | closestPeer :: rest =>
    match set closestPeer with
    | none => none
    | some _ => storeLoop set rest

/-- Go: `func (peer *Peer) SetValue(key, value []byte) bool`: the result
and the peer afterwards. -/
def Peer.SetValue : Nat → Peer → List Byte → List Byte → Option (Bool × Peer)
  | 0, _, _, _ => none
  | fuel+1, peer, key, value =>
    if key ≠ hash value then some (false, peer)
    else if (peer.KBucket.GetValue key).isSome then some (true, peer)
    else
      let kb := peer.KBucket.SetValue key value
      match kb.findClosestPeers key 2 with
      | none => none
      | some closestPeers =>
        (storeLoop (fun p => Peer.SetValue fuel p key value) closestPeers).map
          fun _ => (true, Peer.mk peer.NodeID kb)

/-- The delegation loop of `Peer.GetValue`: `get` is the recursive call. -/
def fetchLoop (get : Peer → Rand → Option (Option (List Byte) × Rand)) :
    List Peer → Rand → Option (Option (List Byte) × Rand)
  | [], g => some (none, g)
  | closestPeer :: rest, g =>
    match get closestPeer g with
    | none => none
    | some (some value, g') => some (some value, g')
    | some (none, g') => fetchLoop get rest g'

/-- Go: `func (peer *Peer) GetValue(key []byte) []byte`. -/
def Peer.GetValue : Nat → Peer → List Byte → Rand → Option (Option (List Byte) × Rand)
  | 0, _, _, _ => none
  | fuel+1, peer, key, g =>
    match peer.KBucket.GetValue key with
    | some value => some (some value, g)
    | none =>
      match peer.KBucket.findNode fuel key g with
      | none => none
      | some ((closestPeers, _), g') =>
        fetchLoop (fun p g'' => Peer.GetValue fuel p key g'') closestPeers g'

/-! ## Reachable tables -/

/-- The tables that calls on the owning peer make in the value model: the
empty table, and what `insertNode` of any contact and a returning
`Peer.SetValue` of the owning peer make of such a table.  A write that
reaches the table through a backing array shared with a copy is no step
of this relation (see the slice-level model). -/
inductive Reachable : KBucket → Prop
  | empty : Reachable KBucket.empty
  | insert (kb : KBucket) (c : Peer) : Reachable kb → Reachable (kb.insertNode c)
  | store (kb : KBucket) (id k v : List Byte) (fuel : Nat) (r : Bool) (P' : Peer) :
      Reachable kb → Peer.SetValue fuel (Peer.mk id kb) k v = some (r, P') →
      Reachable P'.KBucket

/-- The tables a peer can have when `KBucket.SetValue` is also called
directly: the empty table, and what `insertNode`, `KBucket.SetValue` and a
returning `Peer.SetValue` of the owning peer (whatever its NodeID) make of
such a table. -/
inductive ReachableKV : KBucket → Prop
  | empty : ReachableKV KBucket.empty
  | insert (kb : KBucket) (c : Peer) : ReachableKV kb → ReachableKV (kb.insertNode c)
  | set (kb : KBucket) (k v : List Byte) : ReachableKV kb → ReachableKV (kb.SetValue k v)
  | store (kb : KBucket) (id k v : List Byte) (fuel : Nat) (r : Bool) (P' : Peer) :
      ReachableKV kb → Peer.SetValue fuel (Peer.mk id kb) k v = some (r, P') →
      ReachableKV P'.KBucket

/-- Every contact sits in the bucket that `getBucketIndex` gives its NodeID. -/
def Placed (kb : KBucket) : Prop :=
  ∀ i : Fin 160, ∀ c ∈ kb i, getBucketIndex c.NodeID = i.val

/-! ## Nesting depth and hereditary absence of a key -/

mutual
/-- Nesting depth of a peer: one more than the deepest contact of its table. -/
def Peer.depth : Peer → Nat
  | .mk _ kb => 1 + (List.finRange 160).foldl (fun acc i => max acc (depthList (kb i))) 0
/-- The largest depth of the peers of a list. -/
def depthList : List Peer → Nat
  | [] => 0
  | p :: ps => max p.depth (depthList ps)
end

/-- Nesting depth of the contacts of a table: 0 for a table without
contacts, otherwise the largest depth of a contact. -/
def KBucket.nesting (kb : KBucket) : Nat :=
  (List.finRange 160).foldl (fun acc i => max acc (depthList (kb i))) 0

/-- The key `k` is absent from the table and, hereditarily, from the tables
of all contacts nested in it, and all these tables are reachable. -/
inductive Hereditary (k : List Byte) : KBucket → Prop
  | mk (kb : KBucket) : ReachableKV kb → (∀ i : Fin 160, ∀ c ∈ kb i, c.NodeID ≠ k) →
      (∀ i : Fin 160, ∀ c ∈ kb i, Hereditary k c.KBucket) → Hereditary k kb

/-! ## The description of findClosestPeers -/

/-- The bucket at ring position `j mod 160`. -/
def ringBucket (kb : KBucket) (j : Int) : Bucket :=
  kb ⟨(j % 160).toNat, by omega⟩

/-- The contacts of the buckets at offsets `-i` and `+i` from bucket `idx`,
in that order: buckets `(idx - i) mod 160` and `(idx + i) mod 160`. -/
def ringPair (kb : KBucket) (idx i : Nat) : List Peer :=
  ringBucket kb ((idx : Int) - i) ++ ringBucket kb ((idx : Int) + i)

/-- The expansion as the claim words it: from offset `i`, add the pair of
buckets at offsets `-i`, `+i`, stop after the first offset at which at
least `n` contacts are collected, and in any case after `todo` offsets. -/
def specExpand (kb : KBucket) (idx n : Nat) : Nat → Nat → List Peer → List Peer
  | 0, _, S => S
  | todo+1, i, S =>
    if n ≤ (S ++ ringPair kb idx i).length then S ++ ringPair kb idx i
    else specExpand kb idx n todo (i + 1) (S ++ ringPair kb idx i)

/-- The list `S` of the claim: the contacts of bucket `idx`, followed,
only if that is fewer than `n`, by the expansion over offsets `1` to `n-1`. -/
def specCollected (kb : KBucket) (key : List Byte) (n : Nat) : List Peer :=
  if (kb (bucketOf key)).length < n then
    specExpand kb (getBucketIndex key) n (n - 1) 1 (kb (bucketOf key))
  else kb (bucketOf key)

/-- The result the claim gives: the first `n` elements of `S`, padded with
zero-valued peers up to length `n` when `S` is shorter. -/
def specClosest (kb : KBucket) (key : List Byte) (n : Nat) : List Peer :=
  (specCollected kb key n ++
    List.replicate (n - (specCollected kb key n).length) Peer.zero).take n

/-- All the buckets the expansion can visit, with no early stop: the pairs
at offsets `i`, `i+1`, ..., `todo` of them. -/
def visited (kb : KBucket) (idx : Nat) : Nat → Nat → List Peer
  | 0, _ => []
  | todo+1, i => ringPair kb idx i ++ visited kb idx todo (i + 1)

/-! ## Slice-level model: bucket slices over shared backing arrays -/

/-- A Go slice header `[]Peer`: the backing array (its index in the heap),
the first cell, the length and the capacity.  The nil slice has length and
capacity 0. -/
structure Slice where
  arr : Nat
  off : Nat
  len : Nat
  cap : Nat

/-- The nil slice. -/
def Slice.nil : Slice := ⟨0, 0, 0, 0⟩

/-- A `Peer` value at the slice level: the NodeID and the 160 slice headers
of `KBucket.Buckets`.  Copying the struct copies the headers, not the
backing arrays. -/
structure HPeer where
  NodeID : List Byte
  Buckets : Fin 160 → Slice

/-- The 160 slice headers of a `KBucket`. -/
abbrev HKBucket := Fin 160 → Slice

/-- The zero value `KBucket{}` at the slice level. -/
def HKBucket.empty : HKBucket := fun _ => Slice.nil

/-- The zero value `Peer{}` at the slice level. -/
def HPeer.zero : HPeer := ⟨[], HKBucket.empty⟩

/-- The backing arrays allocated so far, each with all its cells. -/
abbrev Heap := List (List HPeer)

/-- The elements a slice shows: `len` cells of its array from `off`. -/
def Heap.view (h : Heap) (s : Slice) : List HPeer :=
  ((h.getD s.arr []).drop s.off).take s.len

/-- Go: `append(s, x)` for one element.  With spare capacity the element is
written in place into the backing array, whoever else shares it; otherwise
a new array is allocated and the shown elements are copied.  The new
capacity is the old one doubled (1 for a nil slice), which is what
`growslice` computes below 256 elements; for the 3856-byte `Peer` the
allocator's size classes leave the capacities 1, 2, 4 and 8 that occur in
`sharedRun` as they are. -/
def Heap.append (h : Heap) (s : Slice) (x : HPeer) : Heap × Slice :=
  if s.len < s.cap then
    (h.set s.arr ((h.getD s.arr []).set (s.off + s.len) x), { s with len := s.len + 1 })
  else
    let newCap := if s.cap = 0 then 1 else 2 * s.cap
    (h ++ [h.view s ++ x :: List.replicate (newCap - (s.len + 1)) HPeer.zero],
      ⟨h.length, 0, s.len + 1, newCap⟩)

/-- Go: `func (kb *KBucket) insertNode(peer Peer)` at the slice level. -/
def HKBucket.insertNode (h : Heap) (kb : HKBucket) (peer : HPeer) : Heap × HKBucket :=
  let index := bucketOf peer.NodeID
  let bucket := kb index
  if (h.view bucket).any (fun node => node.NodeID == peer.NodeID) then (h, kb)
  else if bucket.len < 100 then
    let r := h.append bucket peer
    (r.1, Function.update kb index r.2)
  else
    let r := h.append ⟨bucket.arr, bucket.off + 1, bucket.len - 1, bucket.cap - 1⟩ peer
    (r.1, Function.update kb index r.2)

/-- Go: `func (kb *KBucket) SetValue(key, value []byte)` at the slice level. -/
def HKBucket.SetValue (h : Heap) (kb : HKBucket) (key _value : List Byte) : Heap × HKBucket :=
  let r := h.append (kb (bucketOf key)) ⟨key, HKBucket.empty⟩
  (r.1, Function.update kb (bucketOf key) r.2)

/-- Go: `func (kb *KBucket) GetValue(key []byte) []byte` at the slice level. -/
def HKBucket.GetValue (h : Heap) (kb : HKBucket) (key : List Byte) : Option (List Byte) :=
  (((List.finRange 160).flatMap fun i => h.view (kb i)).find?
    (fun peer => peer.NodeID == key)).map HPeer.NodeID

/-- Bucket `j` for a Go `int` index at the slice level, `none` out of range. -/
def HKBucket.at? (h : Heap) (kb : HKBucket) (j : Int) : Option (List HPeer) :=
  if hj : 0 ≤ j ∧ j < 160 then some (h.view (kb ⟨j.toNat, by omega⟩)) else none

/-- The loop of `findClosestPeers` at the slice level. -/
def hClosestLoop (h : Heap) (kb : HKBucket) (bucketIndex count : Int) :
    Nat → Int → List HPeer → Option (List HPeer)
  | 0, _, closestPeers => some closestPeers
  | todo+1, i, closestPeers =>
    match kb.at? h (Int.tmod (bucketIndex - i + 160) 160),
          kb.at? h (Int.tmod (bucketIndex + i) 160) with
    | some prevBucket, some nextBucket =>
      let closestPeers := closestPeers ++ prevBucket ++ nextBucket
      if (closestPeers.length : Int) ≥ count then some closestPeers
      else hClosestLoop h kb bucketIndex count todo (i + 1) closestPeers
    | _, _ => none

/-- Go: `findClosestPeers` at the slice level.  The result is a slice of its
own: copies of the selected `Peer` values, headers included. -/
def HKBucket.findClosestPeers (h : Heap) (kb : HKBucket) (key : List Byte) (count : Int) :
    Option (List HPeer) :=
  if count < 0 then none
  else
    let bucketIndex : Int := getBucketIndex key
    let closestPeers := h.view (kb (bucketOf key))
    let collected :=
      if (closestPeers.length : Int) < count then
        hClosestLoop h kb bucketIndex count (count.toNat - 1) 1 closestPeers
      else some closestPeers
    collected.map fun cs =>
      (cs ++ List.replicate (count.toNat - cs.length) HPeer.zero).take count.toNat

/-- The replication loop of `Peer.SetValue` at the slice level: each call
runs on a copy `closestPeer` of the selected peer; the copy is dropped
after the call, what the call wrote into the heap stays. -/
def hStoreLoop (set : Heap → HPeer → Option (Bool × Heap)) :
    Heap → List HPeer → Option Heap
  | h, [] => some h
  | h, closestPeer :: rest =>
    match set h closestPeer with
    | none => none
    | some r => hStoreLoop set r.2 rest

/-- Go: `func (peer *Peer) SetValue(key, value []byte) bool` at the slice
level: the result, the heap and the peer afterwards. -/
def HPeer.SetValue : Nat → Heap → HPeer → List Byte → List Byte →
    Option (Bool × Heap × HPeer)
  | 0, _, _, _, _ => none
  | fuel+1, h, peer, key, value =>
    if key ≠ hash value then some (false, h, peer)
    else if (HKBucket.GetValue h peer.Buckets key).isSome then some (true, h, peer)
    else
      let r := HKBucket.SetValue h peer.Buckets key value
      match HKBucket.findClosestPeers r.1 r.2 key 2 with
      | none => none
      | some closestPeers =>
        (hStoreLoop (fun h' p => (HPeer.SetValue fuel h' p key value).map
            fun res => (res.1, res.2.1)) r.1 closestPeers).map
          fun h' => (true, h', ⟨peer.NodeID, r.2⟩)

/-- The NodeIDs that bucket `i` of a peer shows. -/
def HPeer.ids (h : Heap) (p : HPeer) (i : Fin 160) : List (List Byte) :=
  (h.view (p.Buckets i)).map HPeer.NodeID

/-- A fresh peer at the slice level. -/
def HPeer.fresh (id : List Byte) : HPeer := ⟨id, HKBucket.empty⟩

/-- `p.KBucket.insertNode(c)` on a peer variable. -/
def HPeer.insert (w : Heap × HPeer) (c : HPeer) : Heap × HPeer :=
  let r := HKBucket.insertNode w.1 w.2.Buckets c
  (r.1, ⟨w.2.NodeID, r.2⟩)

/-! ## Example data -/

/-- The bytes of the string "hello". -/
def hello : List Byte := [0x68, 0x65, 0x6c, 0x6c, 0x6f]

/-- The two-byte NodeID with big-endian value `n`. -/
def idOf (n : Nat) : List Byte := [UInt8.ofNat (n / 256), UInt8.ofNat n]

/-- One hundred numbers whose two-byte NodeIDs fall, like the key
`hash hello`, into bucket 8. -/
def crowdNums : List Nat :=
  [93, 379, 445, 476, 492, 522, 804, 808, 926, 1129, 1185, 1244,
   1279, 1782, 1914, 2006, 2161, 2404, 2510, 2767, 2777, 2871, 2879, 2899,
   2985, 3107, 3149, 3251, 3563, 3652, 3657, 3677, 3702, 3746, 4025, 4073,
   4355, 4425, 4493, 4567, 4646, 4762, 5010, 5090, 5180, 5221, 5222, 5449,
   5578, 5698, 5740, 5786, 5882, 6013, 6242, 6401, 6617, 6620, 6963, 6992,
   7493, 7975, 7986, 8044, 8164, 8171, 8330, 8479, 8675, 8686, 8696, 8766,
   8860, 8927, 9062, 9100, 9133, 9198, 9309, 9378, 9387, 9407, 9464, 9526,
   9665, 9934, 10099, 10285, 10291, 10535, 10752, 10867, 11153, 11209, 11254, 11658,
   11736, 11874, 12141, 12248]

/-- One hundred contacts of bucket 8: the first two already hold the key
`hash hello` in their own tables, the others are fresh. -/
def crowd : List Peer :=
  (crowdNums.take 2).map (fun n => Peer.mk (idOf n) (KBucket.empty.SetValue (hash hello) hello))
    ++ (crowdNums.drop 2).map (fun n => Peer.mk (idOf n) KBucket.empty)

/-- The table of a peer after `insertNode` of the hundred contacts. -/
def crowdTable : KBucket := crowd.foldl KBucket.insertNode KBucket.empty

/-- A table with two contacts of bucket 8, inserted with `insertNode`. -/
def pairTable : KBucket :=
  (KBucket.empty.insertNode (Peer.mk (idOf 93) KBucket.empty)).insertNode
    (Peer.mk (idOf 379) KBucket.empty)

/-- A table whose every bucket holds 100 contacts named `[0]`. -/
def fullTable : KBucket := fun _ => List.replicate 100 (Peer.mk [0] KBucket.empty)

/-- A fresh peer named "A": `Peer{NodeID: "A", KBucket: KBucket{}}`. -/
def peerA : Peer := Peer.mk [0x41] KBucket.empty

/-- A fresh peer named "B". -/
def peerB : Peer := Peer.mk [0x42] KBucket.empty

/-- A fresh peer named "C". -/
def peerC : Peer := Peer.mk [0x43] KBucket.empty

/-- Peer "A" after `insertNode` of "B" and then of "C". -/
def peerABC : Peer := Peer.mk [0x41] ((KBucket.empty.insertNode peerB).insertNode peerC)

/-- A peer "A" that already holds the key of "hello" as a pseudo-contact. -/
def peerAHello : Peer :=
  Peer.mk [0x41] (KBucket.empty.SetValue (hash hello) hello)

/-- A peer "B" (NodeID `idOf 93`, bucket 8) whose table already holds the
key of "hello". -/
def peerB8 : Peer := Peer.mk (idOf 93) (KBucket.empty.SetValue (hash hello) hello)

/-- A peer "C" (NodeID `idOf 379`, bucket 8) whose table already holds the
key of "hello". -/
def peerC8 : Peer := Peer.mk (idOf 379) (KBucket.empty.SetValue (hash hello) hello)

/-- The table of the fresh peer "A" after `insertNode` of `peerB8` and then
of `peerC8`. -/
def holdersTable : KBucket := (peerA.KBucket.insertNode peerB8).insertNode peerC8

/-- A table with one contact in bucket 25 and one in bucket 27, the two
neighbours of the bucket of the key "A". -/
def nearTable : KBucket :=
  (KBucket.empty.insertNode (Peer.mk (idOf 96) KBucket.empty)).insertNode
    (Peer.mk (idOf 57) KBucket.empty)

/-- The run behind the duplicate: contacts `c0`, `c1` that hold the key of
"hello"; `P` (NodeID 522) with five contacts of bucket 8; `q` that inserts
a copy of `P` and `c0`; then `P.insertNode(804)`, `P.SetValue(key, hello)`
and `q.SetValue(key, hello)`.  The result is what the store on `P`
returned, the NodeIDs that bucket 8 of `P` shows after it, what the store
on `q` returned, and the NodeIDs that bucket 8 of `P` shows at the end. -/
def sharedRun : Option (Bool × List (List Byte) × Bool × List (List Byte)) :=
  let key := hash hello
  let c0 := HPeer.insert ([], HPeer.fresh (idOf 93)) (HPeer.fresh key)
  let c1 := HPeer.insert (c0.1, HPeer.fresh (idOf 379)) (HPeer.fresh key)
  let p1 := HPeer.insert (c1.1, HPeer.fresh (idOf 522)) c0.2
  let p2 := HPeer.insert p1 c1.2
  let p3 := HPeer.insert p2 (HPeer.fresh (idOf 445))
  let p4 := HPeer.insert p3 (HPeer.fresh (idOf 476))
  let p5 := HPeer.insert p4 (HPeer.fresh (idOf 492))
  let q1 := HPeer.insert (p5.1, HPeer.fresh [0x71]) p5.2
  let q2 := HPeer.insert q1 c0.2
  let p6 := HPeer.insert (q2.1, p5.2) (HPeer.fresh (idOf 804))
  match HPeer.SetValue 2 p6.1 p6.2 key hello with
  | none => none
  | some (rP, h7, p7) =>
    match HPeer.SetValue 3 h7 q2.2 key hello with
    | none => none
    | some (rq, h8, _) =>
      some (rP, p7.ids h7 (bucketOf key), rq, p7.ids h8 (bucketOf key))

/-! ## Basic facts -/

theorem beBytes_length (n x : Nat) : (beBytes n x).length = n := by
  induction n with
  | zero => rfl
  | succ n ih => simp [beBytes, ih]

theorem hash_length (data : List Byte) : (hash data).length = 20 := by
  simp [hash, sha1, beBytes_length]

/-- The digest of the empty input (FIPS 180-4 test vector
`da39a3ee 5e6b4b0d 3255bfef 95601890 afd80709`). -/
theorem sha1_nil :
    sha1 [] = [0xda, 0x39, 0xa3, 0xee, 0x5e, 0x6b, 0x4b, 0x0d, 0x32, 0x55,
      0xbf, 0xef, 0x95, 0x60, 0x18, 0x90, 0xaf, 0xd8, 0x07, 0x09] := by decide!

/-- The digest of "abc" (FIPS 180-4 test vector
`a9993e36 4706816a ba3e2571 7850c26c 9cd0d89d`). -/
theorem sha1_abc :
    sha1 [0x61, 0x62, 0x63] = [0xa9, 0x99, 0x3e, 0x36, 0x47, 0x06, 0x81, 0x6a, 0xba, 0x3e,
      0x25, 0x71, 0x78, 0x50, 0xc2, 0x6c, 0x9c, 0xd0, 0xd8, 0x9d] := by decide!

theorem getBucketIndex_lt (nodeID : List Byte) : getBucketIndex nodeID < 160 := by
  unfold getBucketIndex; omega

theorem mem_allNodes (kb : KBucket) (p : Peer) :
    p ∈ kb.allNodes ↔ ∃ i, p ∈ kb i := by
  simp [KBucket.allNodes, List.mem_flatMap]

theorem GetValue_eq_none (kb : KBucket) (key : List Byte) :
    kb.GetValue key = none ↔ ∀ i, ∀ p ∈ kb i, p.NodeID ≠ key := by
  simp only [KBucket.GetValue, Option.map_eq_none', List.find?_eq_none, mem_allNodes]
  constructor
  · intro h i p hp; simpa using h p ⟨i, hp⟩
  · rintro h p ⟨i, hp⟩; simpa using h i p hp

theorem GetValue_eq_some (kb : KBucket) (key v : List Byte) (h : kb.GetValue key = some v) :
    v = key := by
  simp only [KBucket.GetValue, Option.map_eq_some'] at h
  obtain ⟨p, hp, rfl⟩ := h
  simpa using List.find?_some hp

theorem GetValue_isSome (kb : KBucket) (key : List Byte) :
    (kb.GetValue key).isSome ↔ ∃ i, ∃ p ∈ kb i, p.NodeID = key := by
  rw [← not_iff_not]
  simp only [Option.not_isSome_iff_eq_none, GetValue_eq_none]
  push_neg
  rfl

theorem insertNode_eq (kb : KBucket) (peer : Peer) :
    kb.insertNode peer =
      if (kb (bucketOf peer.NodeID)).any (fun node => node.NodeID == peer.NodeID) then kb
      else if (kb (bucketOf peer.NodeID)).length < 100 then
        Function.update kb (bucketOf peer.NodeID) (kb (bucketOf peer.NodeID) ++ [peer])
      else Function.update kb (bucketOf peer.NodeID)
        ((kb (bucketOf peer.NodeID)).drop 1 ++ [peer]) := rfl

theorem insertNode_has (kb : KBucket) (c : Peer) :
    ((kb.insertNode c) (bucketOf c.NodeID)).any (fun node => node.NodeID == c.NodeID) = true := by
  rw [insertNode_eq]
  by_cases h : (kb (bucketOf c.NodeID)).any (fun node => node.NodeID == c.NodeID) = true
  · rw [if_pos h]; exact h
  · rw [if_neg h]
    by_cases hl : (kb (bucketOf c.NodeID)).length < 100
    · rw [if_pos hl]; simp
    · rw [if_neg hl]; simp

/-! ## Selection of the two replication targets -/

theorem at?_tmod (kb : KBucket) (m : Int) (h : 0 ≤ m) :
    ∃ b, kb.at? (Int.tmod m 160) = some b := by
  have h1 : 0 ≤ Int.tmod m 160 := Int.tmod_nonneg _ h
  have h2 : Int.tmod m 160 < 160 := Int.tmod_lt_of_pos _ (by decide)
  exact ⟨_, dif_pos ⟨h1, h2⟩⟩

theorem closestLoop_one (kb : KBucket) (key : List Byte) (cs : List Peer) :
    ∃ more, closestLoop kb (getBucketIndex key) 2 1 1 cs = some (cs ++ more) := by
  obtain ⟨p, hp⟩ := at?_tmod kb ((getBucketIndex key : Int) - 1 + 160) (by omega)
  obtain ⟨n, hn⟩ := at?_tmod kb ((getBucketIndex key : Int) + 1) (by omega)
  refine ⟨p ++ n, ?_⟩
  simp only [closestLoop, hp, hn]
  split <;> simp [List.append_assoc]

theorem take_two_pad (l : List Peer) :
    ∃ a b, (l ++ List.replicate (2 - l.length) Peer.zero).take 2 = [a, b] ∧
      (∀ x xs, l = x :: xs → a = x) ∧ (∀ x y xs, l = x :: y :: xs → b = y) := by
  match l with
  | [] => exact ⟨Peer.zero, Peer.zero, rfl, by simp, by simp⟩
  | [x] => exact ⟨x, Peer.zero, rfl, by simp, by simp⟩
  | x :: y :: xs =>
    refine ⟨x, y, by simp, ?_, ?_⟩
    · intro x' xs' h; cases h; rfl
    · intro x' y' xs' h; cases h; rfl

/-- With `count = 2` the selection never panics and returns two entries,
starting with the contacts of the key's own bucket. -/
theorem findClosestPeers_two (kb : KBucket) (key : List Byte) :
    ∃ a b, kb.findClosestPeers key 2 = some [a, b] ∧
      (∀ x xs, kb (bucketOf key) = x :: xs → a = x) ∧
      (∀ x y xs, kb (bucketOf key) = x :: y :: xs → b = y) := by
  unfold KBucket.findClosestPeers
  simp only [show ¬ ((2 : Int) < 0) by decide, if_false]
  by_cases hlen : ((kb (bucketOf key)).length : Int) < 2
  · obtain ⟨more, hm⟩ := closestLoop_one kb key (kb (bucketOf key))
    obtain ⟨a, b, hab, h1, _⟩ := take_two_pad (kb (bucketOf key) ++ more)
    refine ⟨a, b, ?_, ?_, ?_⟩
    · simp only [hlen, if_true]
      rw [show (2 : Int).toNat - 1 = 1 from rfl, hm]
      simpa using hab
    · intro x xs hx
      exact h1 x (xs ++ more) (by rw [hx]; rfl)
    · intro x y xs hx
      rw [hx] at hlen
      simp at hlen
      omega
  · obtain ⟨a, b, hab, h1, h2⟩ := take_two_pad (kb (bucketOf key))
    refine ⟨a, b, ?_, h1, h2⟩
    simp only [hlen, if_false]
    simpa using hab

/-! ## Divergence of the replication fan-out -/

theorem storeLoop_none_head (set : Peer → Option (Bool × Peer)) (p : Peer) (ps : List Peer)
    (h : set p = none) : storeLoop set (p :: ps) = none := by
  simp [storeLoop, h]

theorem SetValue_step (fuel : Nat) (P : Peer) (k v : List Byte) (hk : k = hash v)
    (hg : P.KBucket.GetValue k = none) :
    ∃ a b, Peer.SetValue (fuel + 1) P k v =
      (storeLoop (fun p => Peer.SetValue fuel p k v) [a, b]).map
        (fun _ => (true, Peer.mk P.NodeID (P.KBucket.SetValue k v))) ∧
      (∀ x xs, P.KBucket (bucketOf k) ++ [Peer.mk k KBucket.empty] = x :: xs → a = x) ∧
      (∀ x y xs, P.KBucket (bucketOf k) ++ [Peer.mk k KBucket.empty] = x :: y :: xs →
        b = y) := by
  obtain ⟨a, b, hab, h1, h2⟩ := findClosestPeers_two (P.KBucket.SetValue k v) k
  have hb : (P.KBucket.SetValue k v) (bucketOf k) =
      P.KBucket (bucketOf k) ++ [Peer.mk k KBucket.empty] := by
    simp [KBucket.SetValue]
  rw [hb] at h1 h2
  refine ⟨a, b, ?_, h1, h2⟩
  subst hk
  simp [Peer.SetValue, hg, hab]

/-- A store on a peer that lacks the key and whose bucket for the key is
empty selects the pseudo-contact it has just appended, whose table is
empty again: no amount of fuel completes the call. -/
theorem SetValue_diverges (k v : List Byte) (hk : k = hash v) :
    ∀ fuel (P : Peer), P.KBucket.GetValue k = none → P.KBucket (bucketOf k) = [] →
      Peer.SetValue fuel P k v = none := by
  intro fuel
  induction fuel with
  | zero => intro P _ _; rfl
  | succ n ih =>
    intro P hg he
    obtain ⟨a, b, hs, h1, _⟩ := SetValue_step n P k v hk hg
    rw [he] at h1
    have ha : a = Peer.mk k KBucket.empty := h1 _ [] rfl
    rw [hs, ha, storeLoop_none_head]
    · rfl
    · apply ih
      · rw [GetValue_eq_none]; intro i p hp; cases hp
      · rfl

/-- The same when the key's bucket starts with a contact whose own table
lacks the key and has an empty bucket for it (a fresh contact). -/
theorem SetValue_diverges_head (k v : List Byte) (hk : k = hash v) (P x : Peer)
    (xs : List Peer) (hg : P.KBucket.GetValue k = none) (hb : P.KBucket (bucketOf k) = x :: xs)
    (hx : x.KBucket.GetValue k = none) (hxe : x.KBucket (bucketOf k) = []) :
    ∀ fuel, Peer.SetValue fuel P k v = none := by
  intro fuel
  cases fuel with
  | zero => rfl
  | succ n =>
    obtain ⟨a, b, hs, h1, _⟩ := SetValue_step n P k v hk hg
    rw [hb] at h1
    have ha : a = x := h1 x (xs ++ [Peer.mk k KBucket.empty]) rfl
    rw [hs, ha, storeLoop_none_head]
    · rfl
    · exact SetValue_diverges k v hk n x hx hxe

/-! ## What a returning store and a returning fetch give -/

theorem mem_insertNode (kb : KBucket) (c p : Peer) (i : Fin 160)
    (h : p ∈ (kb.insertNode c) i) : p ∈ kb i ∨ p = c := by
  rw [insertNode_eq] at h
  split_ifs at h with h1 h2
  · exact Or.inl h
  · by_cases hi : i = bucketOf c.NodeID
    · subst hi
      simp only [Function.update_same, List.mem_append, List.mem_singleton] at h
      exact h
    · rw [Function.update_noteq hi] at h
      exact Or.inl h
  · by_cases hi : i = bucketOf c.NodeID
    · subst hi
      simp only [Function.update_same, List.mem_append, List.mem_singleton] at h
      exact h.imp_left List.mem_of_mem_drop
    · rw [Function.update_noteq hi] at h
      exact Or.inl h

theorem mem_insertNode_of_mem (kb : KBucket) (c p : Peer) (i : Fin 160)
    (hp : p ∈ kb i) (hl : (kb i).length < 100) : p ∈ (kb.insertNode c) i := by
  rw [insertNode_eq]
  split_ifs with h1 h2
  · exact hp
  · by_cases hi : i = bucketOf c.NodeID
    · subst hi; simp [hp]
    · rw [Function.update_noteq hi]; exact hp
  · by_cases hi : i = bucketOf c.NodeID
    · subst hi; exact absurd hl h2
    · rw [Function.update_noteq hi]; exact hp

theorem length_insertNode_le (kb : KBucket) (c : Peer) (i : Fin 160) :
    ((kb.insertNode c) i).length ≤ (kb i).length + 1 := by
  rw [insertNode_eq]
  split_ifs with h1 h2
  · omega
  · by_cases hi : i = bucketOf c.NodeID
    · subst hi; simp
    · rw [Function.update_noteq hi]; omega
  · by_cases hi : i = bucketOf c.NodeID
    · subst hi; simp
    · rw [Function.update_noteq hi]; omega

theorem mem_SetValue_self (kb : KBucket) (k v : List Byte) :
    Peer.mk k KBucket.empty ∈ (kb.SetValue k v) (bucketOf k) := by
  simp [KBucket.SetValue]

/-- A store that returns gives `true` exactly for a key that is the digest
of the value, and then the key is in the table afterwards. -/
theorem SetValue_returns (fuel : Nat) (P P' : Peer) (k v : List Byte) (r : Bool)
    (h : Peer.SetValue fuel P k v = some (r, P')) :
    (k ≠ hash v → r = false ∧ P' = P) ∧
      (k = hash v → r = true ∧ ∃ i : Fin 160, ∃ c ∈ P'.KBucket i, c.NodeID = k) := by
  cases fuel with
  | zero => cases h
  | succ n =>
    constructor
    · intro hk
      simp only [Peer.SetValue, hk, ne_eq, not_false_eq_true, if_true] at h
      cases h
      exact ⟨rfl, rfl⟩
    · intro hk
      by_cases hg : (P.KBucket.GetValue k).isSome
      · subst hk
        simp only [Peer.SetValue, hg, ne_eq, not_true_eq_false, if_false, if_true] at h
        cases h
        exact ⟨rfl, (GetValue_isSome _ _).1 hg⟩
      · have hg' : P.KBucket.GetValue k = none := by simpa using hg
        obtain ⟨a, b, hs, _, _⟩ := SetValue_step n P k v hk hg'
        rw [hs] at h
        simp only [Option.map_eq_some'] at h
        obtain ⟨_, _, h⟩ := h
        cases h
        exact ⟨rfl, bucketOf k, _, mem_SetValue_self P.KBucket k v, rfl⟩

theorem fetchLoop_result (k : List Byte)
    (get : Peer → Rand → Option (Option (List Byte) × Rand))
    (hget : ∀ p g v g', get p g = some (some v, g') → v = k) :
    ∀ (l : List Peer) g v g', fetchLoop get l g = some (some v, g') → v = k := by
  intro l
  induction l with
  | nil => intro g v g' h; simp [fetchLoop] at h
  | cons p ps ih =>
    intro g v g' h
    unfold fetchLoop at h
    split at h
    · cases h
    · next w g1 hw =>
      cases h
      exact hget p g v g' hw
    · exact ih _ _ _ h

/-- A fetch that finds something returns the key itself. -/
theorem GetValue_result (k : List Byte) :
    ∀ fuel (P : Peer) g v g', Peer.GetValue fuel P k g = some (some v, g') → v = k := by
  intro fuel
  induction fuel with
  | zero => intro P g v g' h; cases h
  | succ n ih =>
    intro P g v g' h
    unfold Peer.GetValue at h
    split at h
    · next w hw =>
      cases h
      exact GetValue_eq_some _ _ _ hw
    · split at h
      · cases h
      · exact fetchLoop_result k _ (fun p g v g' hp => ih p g v g' hp) _ _ _ _ h

/-! ## Validation and idempotent store -/

/-- C1: a store whose key is not the digest of the value returns `false`
and leaves the peer, hence each of its 160 buckets, exactly as it was. -/
theorem SetValue_rejects (fuel : Nat) (P : Peer) (k v : List Byte) (h : k ≠ hash v) :
    Peer.SetValue (fuel + 1) P k v = some (false, P) ∧
      ∀ P', Peer.SetValue (fuel + 1) P k v = some (false, P') →
        ∀ i : Fin 160, P'.KBucket i = P.KBucket i := by
  have h1 : Peer.SetValue (fuel + 1) P k v = some (false, P) := by
    simp [Peer.SetValue, h]
  refine ⟨h1, fun P' h2 i => ?_⟩
  rw [h1] at h2
  cases h2
  rfl

theorem SetValue_rejects_witness :
    Peer.SetValue (0 + 1) Peer.zero [1] [2] = some (false, Peer.zero) ∧
      ∀ P', Peer.SetValue (0 + 1) Peer.zero [1] [2] = some (false, P') →
        ∀ i : Fin 160, P'.KBucket i = Peer.zero.KBucket i :=
  SetValue_rejects 0 Peer.zero [1] [2] (fun h => by
    have := congrArg List.length h
    rw [hash_length] at this
    simp at this)

theorem SetValue_of_present (P : Peer) (k v : List Byte) (hk : k = hash v)
    (hc : ∃ i : Fin 160, ∃ c ∈ P.KBucket i, c.NodeID = k) (fuel : Nat) :
    Peer.SetValue (fuel + 1) P k v = some (true, P) := by
  have h := (GetValue_isSome P.KBucket k).2 hc
  subst hk
  simp [Peer.SetValue, h]

/-- C4: when the table already holds a contact whose NodeID is the key (in
any bucket) and the key is the digest of the value, the store returns
`true` with the peer unchanged, already with fuel 1: no recursive
(replication) call is made. -/
theorem SetValue_present (P : Peer) (k v : List Byte) (hk : k = hash v)
    (hc : ∃ i : Fin 160, ∃ c ∈ P.KBucket i, c.NodeID = k) :
    ∀ fuel, Peer.SetValue (fuel + 1) P k v = some (true, P) :=
  SetValue_of_present P k v hk hc

theorem SetValue_present_witness :
    Peer.SetValue (0 + 1) peerAHello (hash hello) hello = some (true, peerAHello) :=
  SetValue_present peerAHello (hash hello) hello rfl
    ⟨bucketOf (hash hello), Peer.mk (hash hello) KBucket.empty,
      mem_SetValue_self KBucket.empty (hash hello) hello, rfl⟩ 0

/-! ## Bucket index -/

/-- C6: the bucket index of any byte string is below 160 (and, being a
natural number, not negative), so it is a valid index of the 160 buckets;
this holds for the fold of any byte sequence, whatever the digest is. -/
theorem getBucketIndex_range :
    (∀ x : List Byte, 0 ≤ getBucketIndex x ∧ getBucketIndex x < 160) ∧
      ∀ d : List Byte, (d.foldl (fun index b => index ^^^ b.toNat) 0) % 160 < 160 :=
  ⟨fun x => ⟨Nat.zero_le _, getBucketIndex_lt x⟩, fun _ => Nat.mod_lt _ (by decide)⟩

/-! ## Store on a fresh peer, round trip, replication scenario -/

theorem GetValue_empty (k : List Byte) : KBucket.empty.GetValue k = none := by
  rw [GetValue_eq_none]; intro i p hp; cases hp

theorem hello_ne_hash : hello ≠ hash hello := by
  intro h
  have := congrArg List.length h
  rw [hash_length] at this
  simp [hello] at this

/-- A fetch on the peer a returning store leaves behind finds the key at
once, whatever the random choices. -/
theorem SetValue_then_GetValue (fuel : Nat) (P P' : Peer) (v : List Byte) (r : Bool)
    (h : Peer.SetValue fuel P (hash v) v = some (r, P')) (n : Nat) (g : Rand) :
    Peer.GetValue (n + 1) P' (hash v) g = some (some (hash v), g) := by
  have hc := ((SetValue_returns fuel P P' (hash v) v r h).2 rfl).2
  have hs := (GetValue_isSome P'.KBucket (hash v)).2 hc
  obtain ⟨w, hw⟩ := Option.isSome_iff_exists.1 hs
  have := GetValue_eq_some _ _ _ hw
  subst this
  simp [Peer.GetValue, hw]

/-- C2, at the failing input: on the fresh peer "A" the store of "hello"
under its digest (so the key passes the validation) returns nothing for
any amount of fuel: the Go call recurses until the stack overflows, where
the claim promises the result `true`. -/
theorem SetValue_fresh_no_result :
    ∀ fuel, Peer.SetValue fuel peerA (hash hello) hello = none :=
  fun fuel => SetValue_diverges (hash hello) hello rfl fuel peerA (GetValue_empty _) rfl

/-- C3, at the failing input: on a fresh peer "P" and the one-byte value
"a", the store of the round trip never returns, so for no fuel and no
random stream does store-then-fetch produce a result. -/
theorem roundtrip_fresh_no_result :
    ([0x61] : List Byte) ≠ [] ∧
      ∀ fuel (g : Rand),
        (Peer.SetValue fuel (Peer.mk [0x50] KBucket.empty) (hash [0x61]) [0x61]).bind
          (fun r => Peer.GetValue fuel r.2 (hash [0x61]) g) = none := by
  refine ⟨by simp, fun fuel g => ?_⟩
  rw [SetValue_diverges (hash [0x61]) [0x61] rfl fuel (Peer.mk [0x50] KBucket.empty)
    (GetValue_empty _) rfl]
  rfl

theorem peerABC_contacts (i : Fin 160) (p : Peer) (h : p ∈ peerABC.KBucket i) :
    p = peerB ∨ p = peerC := by
  rcases mem_insertNode _ _ _ _ h with h | h
  · rcases mem_insertNode _ _ _ _ h with h | h
    · cases h
    · exact Or.inl h
  · exact Or.inr h

theorem peerABC_diverges (fuel : Nat) :
    Peer.SetValue fuel peerABC (hash hello) hello = none := by
  have hfresh : ∀ i, ∀ p ∈ peerABC.KBucket i,
      p.NodeID.length = 1 ∧ p.KBucket = KBucket.empty := by
    intro i p hp
    rcases peerABC_contacts i p hp with h | h <;> subst h <;> exact ⟨rfl, rfl⟩
  have hg : peerABC.KBucket.GetValue (hash hello) = none := by
    rw [GetValue_eq_none]
    intro i p hp h
    have := congrArg List.length h
    rw [hash_length, (hfresh i p hp).1] at this
    cases this
  cases hb : peerABC.KBucket (bucketOf (hash hello)) with
  | nil => exact SetValue_diverges _ _ rfl fuel peerABC hg hb
  | cons x xs =>
    have hx := (hfresh (bucketOf (hash hello)) x (by rw [hb]; exact List.mem_cons_self _ _)).2
    refine SetValue_diverges_head _ _ rfl peerABC x xs hg hb ?_ ?_ fuel
    · rw [hx]; exact GetValue_empty _
    · rw [hx]; rfl

/-- C5 fails as stated: with the fresh peers "A", "B", "C", after B and C
are inserted into A's table the store of "hello" on A returns for no
fuel, and no fetch of the key on C, for any fuel and random stream,
returns the bytes "hello". -/
theorem store_scenario_fails :
    (¬ ∃ fuel, (Peer.SetValue fuel peerABC (hash hello) hello).isSome = true) ∧
      ¬ ∃ fuel g g', Peer.GetValue fuel peerC (hash hello) g = some (some hello, g') := by
  constructor
  · rintro ⟨fuel, h⟩
    rw [peerABC_diverges fuel] at h
    cases h
  · rintro ⟨fuel, g, g', h⟩
    exact hello_ne_hash (GetValue_result _ fuel peerC g hello g' h)

/-! ## insertNode -/

/-- C7: inserting a contact and then another with the same NodeID gives
the table that the first insertion alone gives; the length of the target
bucket is that after the first call. -/
theorem insertNode_idempotent (kb : KBucket) (c c' : Peer) (h : c.NodeID = c'.NodeID) :
    (kb.insertNode c).insertNode c' = kb.insertNode c ∧
      (((kb.insertNode c).insertNode c') (bucketOf c'.NodeID)).length =
        ((kb.insertNode c) (bucketOf c.NodeID)).length := by
  have h1 : (kb.insertNode c).insertNode c' = kb.insertNode c := by
    have := insertNode_has kb c
    rw [h] at this
    rw [insertNode_eq (kb.insertNode c) c', if_pos this]
  rw [h1, h]
  exact ⟨rfl, rfl⟩

theorem insertNode_idempotent_witness :
    (KBucket.empty.insertNode (Peer.mk [1] KBucket.empty)).insertNode
        (Peer.mk [1] (fun _ => [Peer.zero])) =
      KBucket.empty.insertNode (Peer.mk [1] KBucket.empty) ∧
    (((KBucket.empty.insertNode (Peer.mk [1] KBucket.empty)).insertNode
        (Peer.mk [1] (fun _ => [Peer.zero])))
        (bucketOf (Peer.mk [1] (fun _ => [Peer.zero])).NodeID)).length =
      ((KBucket.empty.insertNode (Peer.mk [1] KBucket.empty))
        (bucketOf (Peer.mk [1] KBucket.empty).NodeID)).length :=
  insertNode_idempotent KBucket.empty (Peer.mk [1] KBucket.empty)
    (Peer.mk [1] (fun _ => [Peer.zero])) rfl

/-- C9: FIFO eviction.  When the bucket of `c` holds exactly 100 contacts
`n0 :: rest`, none with the NodeID of `c`, `insertNode c` leaves that
bucket equal to `rest ++ [c]` (still 100 long) and every other bucket
unchanged. -/
theorem insertNode_evicts (kb : KBucket) (c n0 : Peer) (rest : List Peer)
    (hb : kb (bucketOf c.NodeID) = n0 :: rest) (hlen : rest.length = 99)
    (hne : ∀ n ∈ n0 :: rest, n.NodeID ≠ c.NodeID) :
    (kb.insertNode c) (bucketOf c.NodeID) = rest ++ [c] ∧
      ((kb.insertNode c) (bucketOf c.NodeID)).length = 100 ∧
      ∀ i, i ≠ bucketOf c.NodeID → (kb.insertNode c) i = kb i := by
  have hany : (kb (bucketOf c.NodeID)).any (fun node => node.NodeID == c.NodeID) = false := by
    rw [hb, List.any_eq_false]
    intro n hn
    simpa using hne n hn
  have hl : ¬ (kb (bucketOf c.NodeID)).length < 100 := by
    rw [hb]; simp [hlen]
  have hins : kb.insertNode c =
      Function.update kb (bucketOf c.NodeID) (rest ++ [c]) := by
    rw [insertNode_eq, hany, if_neg (by simp), if_neg hl, hb]
    rfl
  rw [hins]
  refine ⟨by simp, by simp [hlen], fun i hi => by simp [Function.update_noteq hi]⟩

theorem insertNode_evicts_witness :
    (KBucket.insertNode fullTable (Peer.mk [1] KBucket.empty))
        (bucketOf (Peer.mk [1] KBucket.empty).NodeID) =
      List.replicate 99 (Peer.mk [0] KBucket.empty) ++ [Peer.mk [1] KBucket.empty] ∧
    ((KBucket.insertNode fullTable (Peer.mk [1] KBucket.empty))
        (bucketOf (Peer.mk [1] KBucket.empty).NodeID)).length = 100 ∧
    ∀ i, i ≠ bucketOf (Peer.mk [1] KBucket.empty).NodeID →
      (KBucket.insertNode fullTable (Peer.mk [1] KBucket.empty)) i = fullTable i :=
  insertNode_evicts fullTable
    (Peer.mk [1] KBucket.empty) (Peer.mk [0] KBucket.empty)
    (List.replicate 99 (Peer.mk [0] KBucket.empty)) (List.replicate_succ _ 99)
    (List.length_replicate _ _)
    (by
      intro n hn
      have : n = Peer.mk [0] KBucket.empty := by
        rcases List.mem_cons.1 hn with h | h
        · exact h
        · exact List.eq_of_mem_replicate h
      subst this
      simp [Peer.NodeID])

/-! ## Invariants of reachable tables -/

theorem SetValue_table (fuel : Nat) (P P' : Peer) (k v : List Byte) (r : Bool)
    (h : Peer.SetValue fuel P k v = some (r, P')) :
    P' = P ∨ (P.KBucket.GetValue k = none ∧
      P' = Peer.mk P.NodeID (P.KBucket.SetValue k v)) := by
  by_cases hk : k = hash v
  · cases fuel with
    | zero => cases h
    | succ n =>
      by_cases hg : (P.KBucket.GetValue k).isSome
      · rw [SetValue_of_present P k v hk ((GetValue_isSome _ _).1 hg) n] at h
        cases h
        exact Or.inl rfl
      · have hg' : P.KBucket.GetValue k = none := by simpa using hg
        obtain ⟨a, b, hs, _, _⟩ := SetValue_step n P k v hk hg'
        rw [hs] at h
        simp only [Option.map_eq_some'] at h
        obtain ⟨_, _, h⟩ := h
        cases h
        exact Or.inr ⟨hg', rfl⟩
  · exact Or.inl ((SetValue_returns fuel P P' k v r h).1 hk).2

theorem not_any_iff (l : List Peer) (x : List Byte) :
    ¬ (l.any (fun node => node.NodeID == x) = true) ↔ x ∉ l.map Peer.NodeID := by
  simp

/-! ## The capacity bound and the store path -/

theorem foldl_insertNode (b : Fin 160) :
    ∀ (peers : List Peer) (kb : KBucket), (∀ p ∈ peers, bucketOf p.NodeID = b) →
      ((kb b ++ peers).map Peer.NodeID).Nodup → (kb b).length + peers.length ≤ 100 →
      (peers.foldl KBucket.insertNode kb) b = kb b ++ peers := by
  intro peers
  induction peers with
  | nil => intro kb _ _ _; simp
  | cons p ps ih =>
    intro kb hb hn hl
    have hpb : bucketOf p.NodeID = b := hb p (List.mem_cons_self _ _)
    have hnot : ¬ ((kb b).any (fun node => node.NodeID == p.NodeID) = true) := by
      rw [not_any_iff]
      intro hm
      rw [List.map_append, List.map_cons] at hn
      exact (List.nodup_append.1 hn).2.2 hm (List.mem_cons_self _ _)
    have hlt : (kb b).length < 100 := by
      simp only [List.length_cons] at hl; omega
    have hins : kb.insertNode p = Function.update kb b (kb b ++ [p]) := by
      rw [insertNode_eq, hpb, if_neg hnot, if_pos hlt]
    rw [List.foldl_cons, hins, ih]
    · simp
    · exact fun q hq => hb q (List.mem_cons_of_mem _ hq)
    · simpa using hn
    · simp only [Function.update_same, List.length_append, List.length_cons,
        List.length_nil] at hl ⊢
      omega

theorem mem_foldl_insertNode (i : Fin 160) (q : Peer) :
    ∀ (peers : List Peer) (kb : KBucket), q ∈ (peers.foldl KBucket.insertNode kb) i →
      q ∈ kb i ∨ q ∈ peers := by
  intro peers
  induction peers with
  | nil => intro kb h; exact Or.inl h
  | cons p ps ih =>
    intro kb h
    rcases ih _ h with h | h
    · rcases mem_insertNode kb p q i h with h | h
      · exact Or.inl h
      · exact Or.inr (h ▸ List.mem_cons_self _ _)
    · exact Or.inr (List.mem_cons_of_mem _ h)

theorem reachable_foldl (peers : List Peer) :
    ∀ kb, Reachable kb → Reachable (peers.foldl KBucket.insertNode kb) := by
  induction peers with
  | nil => intro kb h; exact h
  | cons p ps ih => intro kb h; exact ih _ (Reachable.insert kb p h)

theorem hello_bucket : getBucketIndex (hash hello) = 8 := by decide!

theorem crowdNums_bucket : ∀ n ∈ crowdNums, getBucketIndex (idOf n) = 8 := by decide!

theorem crowdNums_nodup : (crowdNums.map idOf).Nodup := by decide!

theorem crowd_ids : crowd.map Peer.NodeID = crowdNums.map idOf := by
  have h : ∀ l : List Nat, ∀ t : KBucket,
      (l.map (fun n => Peer.mk (idOf n) t)).map Peer.NodeID = l.map idOf := by
    intro l t; simp [List.map_map, Function.comp_def, Peer.NodeID]
  rw [crowd, List.map_append, h, h, ← List.map_append, List.take_append_drop]

theorem crowd_length : crowd.length = 100 := by
  have := congrArg List.length crowd_ids
  simpa [crowdNums] using this

theorem crowd_mem (p : Peer) (hp : p ∈ crowd) :
    bucketOf p.NodeID = bucketOf (hash hello) ∧ p.NodeID ≠ hash hello := by
  have hm : p.NodeID ∈ crowdNums.map idOf := crowd_ids ▸ List.mem_map_of_mem _ hp
  obtain ⟨n, hn, hnp⟩ := List.mem_map.1 hm
  constructor
  · apply Fin.ext
    show getBucketIndex p.NodeID = getBucketIndex (hash hello)
    rw [← hnp, crowdNums_bucket n hn, hello_bucket]
  · intro h
    have := congrArg List.length h
    rw [hash_length, ← hnp] at this
    simp [idOf] at this

theorem crowdTable_bucket : crowdTable (bucketOf (hash hello)) = crowd := by
  have := foldl_insertNode (bucketOf (hash hello)) crowd KBucket.empty
    (fun p hp => (crowd_mem p hp).1)
    (by
      show ((([] : List Peer) ++ crowd).map Peer.NodeID).Nodup
      rw [List.nil_append, crowd_ids]; exact crowdNums_nodup)
    (by
      show ([] : List Peer).length + crowd.length ≤ 100
      rw [crowd_length]; simp)
  simpa [crowdTable, KBucket.empty] using this

theorem crowdTable_lacks_key : crowdTable.GetValue (hash hello) = none := by
  rw [GetValue_eq_none]
  intro i p hp
  rcases mem_foldl_insertNode i p crowd KBucket.empty hp with h | h
  · cases h
  · exact (crowd_mem p h).2

theorem crowd_cons : ∃ rest, crowd =
    Peer.mk (idOf 93) (KBucket.empty.SetValue (hash hello) hello) ::
      Peer.mk (idOf 379) (KBucket.empty.SetValue (hash hello) hello) :: rest :=
  ⟨_, rfl⟩

theorem crowd_store :
    Peer.SetValue 2 (Peer.mk [0x41] crowdTable) (hash hello) hello =
      some (true, Peer.mk [0x41] (crowdTable.SetValue (hash hello) hello)) := by
  obtain ⟨a, b, hs, h1, h2⟩ :=
    SetValue_step 1 (Peer.mk [0x41] crowdTable) (hash hello) hello rfl crowdTable_lacks_key
  obtain ⟨rest, hr⟩ := crowd_cons
  have hb : (Peer.mk [0x41] crowdTable).KBucket (bucketOf (hash hello)) ++
      [Peer.mk (hash hello) KBucket.empty] =
      Peer.mk (idOf 93) (KBucket.empty.SetValue (hash hello) hello) ::
        Peer.mk (idOf 379) (KBucket.empty.SetValue (hash hello) hello) ::
          (rest ++ [Peer.mk (hash hello) KBucket.empty]) := by
    show crowdTable (bucketOf (hash hello)) ++ _ = _
    rw [crowdTable_bucket, hr]; rfl
  have ha := h1 _ _ hb
  have hb' := h2 _ _ _ hb
  have hp : ∀ id, Peer.SetValue 1 (Peer.mk id (KBucket.empty.SetValue (hash hello) hello))
      (hash hello) hello =
      some (true, Peer.mk id (KBucket.empty.SetValue (hash hello) hello)) := fun id =>
    SetValue_of_present (Peer.mk id (KBucket.empty.SetValue (hash hello) hello))
      (hash hello) hello rfl
      ⟨bucketOf (hash hello), Peer.mk (hash hello) KBucket.empty,
        mem_SetValue_self KBucket.empty (hash hello) hello, rfl⟩ 0
  rw [hs, ha, hb']
  simp [storeLoop, hp, Peer.NodeID, Peer.KBucket]

/-- C8, at the failing input: one hundred contacts of bucket 8 are
inserted with `insertNode` into an empty table, then the peer stores
"hello" under its digest, a key of bucket 8.  The store returns `true`,
the table it leaves is reachable, and its bucket 8 holds 101 contacts:
`KBucket.SetValue` appends without the capacity test of `insertNode`. -/
theorem capacity_exceeded :
    Peer.SetValue 2 (Peer.mk [0x41] crowdTable) (hash hello) hello =
        some (true, Peer.mk [0x41] (crowdTable.SetValue (hash hello) hello)) ∧
      Reachable (crowdTable.SetValue (hash hello) hello) ∧
      ((crowdTable.SetValue (hash hello) hello) (bucketOf (hash hello))).length = 101 := by
  refine ⟨crowd_store, ?_, ?_⟩
  · exact Reachable.store crowdTable [0x41] (hash hello) hello 2 true _
      (reachable_foldl crowd _ Reachable.empty) crowd_store
  · simp [KBucket.SetValue, crowdTable_bucket, crowd_length]

/-! ## The replication scenario with targets that return -/

theorem holders_mem (i : Fin 160) (p : Peer) (h : p ∈ holdersTable i) :
    p = peerB8 ∨ p = peerC8 := by
  rcases mem_insertNode _ _ _ _ h with h | h
  · rcases mem_insertNode _ _ _ _ h with h | h
    · cases h
    · exact Or.inl h
  · exact Or.inr h

theorem holders_bucket : holdersTable (bucketOf (hash hello)) = [peerB8, peerC8] := by
  have hb : ∀ n ∈ crowdNums, bucketOf (idOf n) = bucketOf (hash hello) := by
    intro n hn
    apply Fin.ext
    show getBucketIndex (idOf n) = getBucketIndex (hash hello)
    rw [crowdNums_bucket n hn, hello_bucket]
  have h := foldl_insertNode (bucketOf (hash hello)) [peerB8, peerC8] KBucket.empty
    (by
      intro p hp
      rcases List.mem_cons.1 hp with hp | hp
      · subst hp; exact hb 93 (by simp [crowdNums])
      · rw [List.mem_singleton] at hp
        subst hp; exact hb 379 (by simp [crowdNums]))
    (by
      show (List.map Peer.NodeID ([] ++ [peerB8, peerC8])).Nodup
      simp [Peer.NodeID, peerB8, peerC8, idOf])
    (by
      show ([] : List Peer).length + 2 ≤ 100
      simp)
  exact h

theorem holders_lack_key : holdersTable.GetValue (hash hello) = none := by
  rw [GetValue_eq_none]
  intro i p hp h
  have hl : p.NodeID.length = 2 := by
    rcases holders_mem i p hp with hp | hp <;> subst hp <;> rfl
  have := congrArg List.length h
  rw [hash_length, hl] at this
  cases this

theorem holder_store (id : List Byte) :
    Peer.SetValue 1 (Peer.mk id (KBucket.empty.SetValue (hash hello) hello)) (hash hello)
      hello = some (true, Peer.mk id (KBucket.empty.SetValue (hash hello) hello)) :=
  SetValue_of_present (Peer.mk id (KBucket.empty.SetValue (hash hello) hello))
    (hash hello) hello rfl
    ⟨bucketOf (hash hello), Peer.mk (hash hello) KBucket.empty,
      mem_SetValue_self KBucket.empty (hash hello) hello, rfl⟩ 0

theorem holders_targets :
    (holdersTable.SetValue (hash hello) hello).findClosestPeers (hash hello) 2 =
      some [peerB8, peerC8] := by
  obtain ⟨a, b, hab, h1, h2⟩ :=
    findClosestPeers_two (holdersTable.SetValue (hash hello) hello) (hash hello)
  have hb : (holdersTable.SetValue (hash hello) hello) (bucketOf (hash hello)) =
      peerB8 :: peerC8 :: [Peer.mk (hash hello) KBucket.empty] := by
    simp [KBucket.SetValue, holders_bucket]
  rw [hab, h1 _ _ hb, h2 _ _ _ hb]

theorem holders_store :
    Peer.SetValue 1 (Peer.mk [0x41] holdersTable) (hash hello) hello = none ∧
      Peer.SetValue 2 (Peer.mk [0x41] holdersTable) (hash hello) hello =
        some (true, Peer.mk [0x41] (holdersTable.SetValue (hash hello) hello)) := by
  have hb : (Peer.mk [0x41] holdersTable).KBucket (bucketOf (hash hello)) ++
      [Peer.mk (hash hello) KBucket.empty] =
      peerB8 :: peerC8 :: [Peer.mk (hash hello) KBucket.empty] := by
    show holdersTable (bucketOf (hash hello)) ++ _ = _
    rw [holders_bucket]; rfl
  constructor
  · obtain ⟨a, b, hs, _, _⟩ :=
      SetValue_step 0 (Peer.mk [0x41] holdersTable) (hash hello) hello rfl holders_lack_key
    rw [hs, storeLoop_none_head _ a [b] rfl]
    rfl
  · obtain ⟨a, b, hs, h1, h2⟩ :=
      SetValue_step 1 (Peer.mk [0x41] holdersTable) (hash hello) hello rfl holders_lack_key
    rw [hs, h1 _ _ hb, h2 _ _ _ hb]
    simp [storeLoop, peerB8, peerC8, holder_store, Peer.NodeID, Peer.KBucket]

theorem storeLoop_two (set : Peer → Option (Bool × Peer)) (a b : Peer) (u : Unit)
    (h : storeLoop set [a, b] = some u) :
    (∃ ra, set a = some ra) ∧ ∃ rb, set b = some rb := by
  cases ha : set a with
  | none => simp [storeLoop, ha] at h
  | some ra =>
    cases hb : set b with
    | none => simp [storeLoop, ha, hb] at h
    | some rb => exact ⟨⟨ra, rfl⟩, ⟨rb, rfl⟩⟩

/-- A store that returns on a peer that lacked the key has appended the
pseudo-contact, and the stores on the two peers that `findClosestPeers key
2` selects on the table so extended have both returned `true`. -/
theorem SetValue_replicates (fuel : Nat) (P P' : Peer) (k v : List Byte) (r : Bool)
    (hk : k = hash v) (hg : P.KBucket.GetValue k = none)
    (h : Peer.SetValue fuel P k v = some (r, P')) :
    ∃ f a b, fuel = f + 1 ∧
      (P.KBucket.SetValue k v).findClosestPeers k 2 = some [a, b] ∧
      (∃ a', Peer.SetValue f a k v = some (true, a')) ∧
      (∃ b', Peer.SetValue f b k v = some (true, b')) ∧
      P' = Peer.mk P.NodeID (P.KBucket.SetValue k v) := by
  cases fuel with
  | zero => cases h
  | succ f =>
    obtain ⟨a, b, hab, _, _⟩ := findClosestPeers_two (P.KBucket.SetValue k v) k
    have hs : Peer.SetValue (f + 1) P k v =
        (storeLoop (fun p => Peer.SetValue f p k v) [a, b]).map
          (fun _ => (true, Peer.mk P.NodeID (P.KBucket.SetValue k v))) := by
      subst hk
      simp [Peer.SetValue, hg, hab]
    rw [hs, Option.map_eq_some'] at h
    obtain ⟨u, hu, hP⟩ := h
    obtain ⟨⟨ra, ha⟩, ⟨rb, hb⟩⟩ := storeLoop_two _ a b u hu
    have ha' := ((SetValue_returns f a ra.2 k v ra.1 ha).2 hk).1
    have hb' := ((SetValue_returns f b rb.2 k v rb.1 hb).2 hk).1
    refine ⟨f, a, b, rfl, hab, ⟨ra.2, ?_⟩, ⟨rb.2, ?_⟩, ?_⟩
    · rw [ha, ← ha']
    · rw [hb, ← hb']
    · cases hP; rfl

/-- C5, amended: for any peers A, B, C with B and C inserted into A's
table, a store of "hello" under its digest on A that returns, returns
`true` and leaves in A's table a contact whose NodeID is the key; when A
lacked the key, the stores on the two replication targets that
`findClosestPeers key 2` selects have returned `true` as well.  A fetch of
the key on C that finds something returns the key, never the bytes
"hello", and it does return the key, at once, when C's table holds it. -/
theorem store_scenario (A B C A' : Peer) (fuel : Nat) (r : Bool)
    (h : Peer.SetValue fuel (Peer.mk A.NodeID ((A.KBucket.insertNode B).insertNode C))
      (hash hello) hello = some (r, A')) :
    r = true ∧ (∃ i : Fin 160, ∃ c ∈ A'.KBucket i, c.NodeID = hash hello) ∧
      (((A.KBucket.insertNode B).insertNode C).GetValue (hash hello) = none →
        ∃ f a b, fuel = f + 1 ∧
          (((A.KBucket.insertNode B).insertNode C).SetValue (hash hello)
            hello).findClosestPeers (hash hello) 2 = some [a, b] ∧
          (∃ a', Peer.SetValue f a (hash hello) hello = some (true, a')) ∧
          (∃ b', Peer.SetValue f b (hash hello) hello = some (true, b')) ∧
          A'.KBucket = ((A.KBucket.insertNode B).insertNode C).SetValue (hash hello) hello) ∧
      (∀ n g v g', Peer.GetValue n C (hash hello) g = some (some v, g') →
        v = hash hello ∧ v ≠ hello) ∧
      ((∃ i : Fin 160, ∃ c ∈ C.KBucket i, c.NodeID = hash hello) →
        ∀ n g, Peer.GetValue (n + 1) C (hash hello) g = some (some (hash hello), g)) := by
  obtain ⟨hr, hc⟩ := (SetValue_returns fuel _ A' (hash hello) hello r h).2 rfl
  refine ⟨hr, hc, fun hg => ?_, fun n g v g' hv => ?_, fun hC n g => ?_⟩
  · obtain ⟨f, a, b, hf, hab, ha, hb, hP⟩ :=
      SetValue_replicates fuel (Peer.mk A.NodeID ((A.KBucket.insertNode B).insertNode C)) A'
        (hash hello) hello r rfl hg h
    exact ⟨f, a, b, hf, hab, ha, hb, by rw [hP]; rfl⟩
  · have := GetValue_result _ n C g v g' hv
    subst this
    exact ⟨rfl, fun h => hello_ne_hash h.symm⟩
  · exact SetValue_then_GetValue 1 C C hello true
      (SetValue_of_present C (hash hello) hello rfl hC 0) n g

theorem store_scenario_witness :
    (holdersTable.GetValue (hash hello) = none ∧
      (holdersTable.SetValue (hash hello) hello).findClosestPeers (hash hello) 2 =
        some [peerB8, peerC8] ∧
      Peer.SetValue 1 (Peer.mk peerA.NodeID ((peerA.KBucket.insertNode peerB8).insertNode
        peerC8)) (hash hello) hello = none ∧
      Peer.SetValue 2 (Peer.mk peerA.NodeID ((peerA.KBucket.insertNode peerB8).insertNode
        peerC8)) (hash hello) hello =
        some (true, Peer.mk [0x41] (holdersTable.SetValue (hash hello) hello))) ∧
    (true = true ∧
      (∃ i : Fin 160, ∃ c ∈ (Peer.mk [0x41] (holdersTable.SetValue (hash hello) hello)).KBucket i,
        c.NodeID = hash hello) ∧
      (holdersTable.GetValue (hash hello) = none →
        ∃ f a b, 2 = f + 1 ∧
          (holdersTable.SetValue (hash hello) hello).findClosestPeers (hash hello) 2 =
            some [a, b] ∧
          (∃ a', Peer.SetValue f a (hash hello) hello = some (true, a')) ∧
          (∃ b', Peer.SetValue f b (hash hello) hello = some (true, b')) ∧
          (Peer.mk [0x41] (holdersTable.SetValue (hash hello) hello)).KBucket =
            holdersTable.SetValue (hash hello) hello) ∧
      (∀ n g v g', Peer.GetValue n peerC8 (hash hello) g = some (some v, g') →
        v = hash hello ∧ v ≠ hello) ∧
      ((∃ i : Fin 160, ∃ c ∈ peerC8.KBucket i, c.NodeID = hash hello) →
        ∀ n g, Peer.GetValue (n + 1) peerC8 (hash hello) g =
          some (some (hash hello), g))) ∧
    Peer.GetValue 1 peerC8 (hash hello) (fun _ => 0) = some (some (hash hello), fun _ => 0) :=
  ⟨⟨holders_lack_key, holders_targets, holders_store.1, holders_store.2⟩,
    store_scenario peerA peerB8 peerC8 _ 2 true holders_store.2,
    (store_scenario peerA peerB8 peerC8 _ 2 true holders_store.2).2.2.2.2
      ⟨bucketOf (hash hello), Peer.mk (hash hello) KBucket.empty,
        mem_SetValue_self KBucket.empty (hash hello) hello, rfl⟩ 0 (fun _ => 0)⟩

/-! ## Placement of contacts -/

theorem reachable_toKV (kb : KBucket) (h : Reachable kb) : ReachableKV kb := by
  induction h with
  | empty => exact ReachableKV.empty
  | insert kb c _ ih => exact ReachableKV.insert kb c ih
  | store kb id k v fuel r P' _ hs ih => exact ReachableKV.store kb id k v fuel r P' ih hs

theorem placed_empty : Placed KBucket.empty := by
  intro i c hc; cases hc

theorem placed_insertNode (kb : KBucket) (c : Peer) (h : Placed kb) :
    Placed (kb.insertNode c) := by
  intro i p hp
  rcases mem_insertNode kb c p i hp with hp | hp
  · exact h i p hp
  · subst hp
    by_cases hi : i = bucketOf p.NodeID
    · rw [hi]; rfl
    · rw [insertNode_eq] at hp
      split_ifs at hp
      · exact h i p hp
      · rw [Function.update_noteq hi] at hp; exact h i p hp
      · rw [Function.update_noteq hi] at hp; exact h i p hp

theorem placed_SetValue (kb : KBucket) (k v : List Byte) (h : Placed kb) :
    Placed (kb.SetValue k v) := by
  intro i p hp
  unfold KBucket.SetValue at hp
  by_cases hi : i = bucketOf k
  · subst hi
    rw [Function.update_same, List.mem_append, List.mem_singleton] at hp
    rcases hp with hp | hp
    · exact h _ p hp
    · subst hp; rfl
  · rw [Function.update_noteq hi] at hp; exact h i p hp

theorem placed_of_reachableKV (kb : KBucket) (h : ReachableKV kb) : Placed kb := by
  induction h with
  | empty => exact placed_empty
  | insert kb c _ ih => exact placed_insertNode kb c ih
  | set kb k v _ ih => exact placed_SetValue kb k v ih
  | store kb id k v fuel r P' _ hs ih =>
    rcases SetValue_table fuel _ P' k v r hs with h | ⟨_, h⟩
    · subst h; exact ih
    · subst h; exact placed_SetValue kb k v ih

/-- C16: in a table reached from the empty table by `insertNode`,
`KBucket.SetValue` and `Peer.SetValue` operations, every contact of bucket
`i` has `getBucketIndex` of its NodeID equal to `i`; the owner's NodeID
(any `id` in the store step of `ReachableKV`) plays no part. -/
theorem reachable_placement (kb : KBucket) (h : ReachableKV kb) :
    ∀ i : Fin 160, ∀ c ∈ kb i, getBucketIndex c.NodeID = i.val :=
  placed_of_reachableKV kb h

theorem reachable_placement_witness :
    ReachableKV (((KBucket.empty.insertNode peerB).SetValue (hash hello) hello).insertNode
        peerC) ∧
      ∀ i : Fin 160,
        ∀ c ∈ (((KBucket.empty.insertNode peerB).SetValue (hash hello) hello).insertNode
          peerC) i, getBucketIndex c.NodeID = i.val :=
  ⟨ReachableKV.insert _ peerC (ReachableKV.set _ _ _
      (ReachableKV.insert _ peerB ReachableKV.empty)),
    reachable_placement _ (ReachableKV.insert _ peerC (ReachableKV.set _ _ _
      (ReachableKV.insert _ peerB ReachableKV.empty)))⟩

/-! ## The store on an empty table, and what a fetch returns -/

/-- C17: on a peer with an empty table the store of any value under its
digest returns for no amount of fuel; the first replication target that
`findClosestPeers key 2` selects is the pseudo-contact just appended, whose
table is empty again. -/
theorem SetValue_empty_never_returns (id v : List Byte) :
    (∃ b, (KBucket.empty.SetValue (hash v) v).findClosestPeers (hash v) 2 =
        some [Peer.mk (hash v) KBucket.empty, b]) ∧
      ∀ fuel, Peer.SetValue fuel (Peer.mk id KBucket.empty) (hash v) v = none := by
  constructor
  · obtain ⟨a, b, hab, h1, _⟩ :=
      findClosestPeers_two (KBucket.empty.SetValue (hash v) v) (hash v)
    have ha : a = Peer.mk (hash v) KBucket.empty :=
      h1 _ [] (by simp [KBucket.SetValue, KBucket.empty])
    exact ⟨b, by rw [hab, ha]⟩
  · intro fuel
    exact SetValue_diverges (hash v) v rfl fuel _ (GetValue_empty _) rfl

/-- C18: a fetch that returns a non-nil result returns the key, byte for
byte, whatever the peer, the fuel and the random choices; and the table
that `KBucket.SetValue` leaves does not depend on the value bytes. -/
theorem GetValue_returns_key (fuel : Nat) (P : Peer) (k v : List Byte) (g g' : Rand)
    (h : Peer.GetValue fuel P k g = some (some v, g')) :
    v = k ∧ ∀ (kb : KBucket) (w w' : List Byte), kb.SetValue k w = kb.SetValue k w' :=
  ⟨GetValue_result k fuel P g v g' h, fun _ _ _ => rfl⟩

theorem GetValue_returns_key_witness :
    hash hello = hash hello ∧
      ∀ (kb : KBucket) (w w' : List Byte),
        kb.SetValue (hash hello) w = kb.SetValue (hash hello) w' :=
  GetValue_returns_key 1 peerAHello (hash hello) (hash hello) (fun _ => 0) (fun _ => 0)
    (SetValue_then_GetValue 1 peerAHello peerAHello hello true
      (SetValue_of_present peerAHello (hash hello) hello rfl
        ⟨bucketOf (hash hello), Peer.mk (hash hello) KBucket.empty,
          mem_SetValue_self KBucket.empty (hash hello) hello, rfl⟩ 0) 0 (fun _ => 0))

/-! ## findNode on a direct hit -/

theorem findNode_hit (fuel : Nat) (kb : KBucket) (k : List Byte) (g : Rand) (p : Peer)
    (h : (kb (bucketOf k)).find? (fun peer => peer.NodeID == k) = some p) :
    kb.findNode (fuel + 1) k g = some (([p], true), g) := by
  simp [KBucket.findNode, h]

theorem findNode_miss (fuel : Nat) (kb : KBucket) (k : List Byte) (g : Rand)
    (h : (kb (bucketOf k)).find? (fun peer => peer.NodeID == k) = none) :
    kb.findNode (fuel + 1) k g =
      (probeLoop (fun k' g' => kb.findNode fuel k' g') kb 2 [] g).map
        fun res => ((res.1, false), res.2) := by
  simp [KBucket.findNode, h]

theorem find?_isSome_iff (l : List Peer) (k : List Byte) :
    (∃ p, l.find? (fun peer => peer.NodeID == k) = some p) ↔ ∃ c ∈ l, c.NodeID = k := by
  constructor
  · rintro ⟨p, hp⟩
    exact ⟨p, List.mem_of_find?_eq_some hp, by simpa using List.find?_some hp⟩
  · rintro ⟨c, hc, hk⟩
    cases hf : l.find? (fun peer => peer.NodeID == k) with
    | some p => exact ⟨p, rfl⟩
    | none =>
      rw [List.find?_eq_none] at hf
      exact absurd (by simpa using hk) (hf c hc)

/-- C11: whatever the random choices, `findNode k` reports `found = true`
exactly when a contact of bucket `getBucketIndex k` has NodeID `k`: then
every call with fuel returns the one-element list of the first such
contact and leaves the random stream untouched, and any result of any call
has `found = true` only in that case, with that list. -/
theorem findNode_found_iff (kb : KBucket) (k : List Byte) :
    (∀ p, (kb (bucketOf k)).find? (fun peer => peer.NodeID == k) = some p →
        ∀ fuel g, kb.findNode (fuel + 1) k g = some (([p], true), g)) ∧
      ∀ fuel g l found g', kb.findNode fuel k g = some ((l, found), g') →
        ((found = true ↔ ∃ c ∈ kb (bucketOf k), c.NodeID = k) ∧
          (found = true →
            ∃ p, (kb (bucketOf k)).find? (fun peer => peer.NodeID == k) = some p ∧
              l = [p])) := by
  refine ⟨fun p hp fuel g => findNode_hit fuel kb k g p hp, ?_⟩
  intro fuel g l found g' h
  cases fuel with
  | zero => cases h
  | succ n =>
    cases hf : (kb (bucketOf k)).find? (fun peer => peer.NodeID == k) with
    | some p =>
      rw [findNode_hit n kb k g p hf] at h
      cases h
      exact ⟨⟨fun _ => (find?_isSome_iff _ _).1 ⟨p, hf⟩, fun _ => rfl⟩, fun _ => ⟨p, rfl, rfl⟩⟩
    | none =>
      rw [findNode_miss n kb k g hf, Option.map_eq_some'] at h
      obtain ⟨res, _, hres⟩ := h
      cases hres
      refine ⟨⟨fun hc => Bool.noConfusion hc, fun hc => ?_⟩, fun hc => Bool.noConfusion hc⟩
      obtain ⟨p, hp⟩ := (find?_isSome_iff _ _).2 hc
      rw [hf] at hp
      cases hp

/-! ## Table-level round trip -/

theorem find?_flatMap_update (kb : KBucket) (b : Fin 160) (x : Peer) (q : Peer → Bool)
    (hx : q x = false) (l : List (Fin 160)) :
    (l.flatMap (Function.update kb b (kb b ++ [x]))).find? q = (l.flatMap kb).find? q := by
  induction l with
  | nil => rfl
  | cons i is ih =>
    rw [List.flatMap_cons, List.flatMap_cons, List.find?_append, List.find?_append, ih]
    by_cases hi : i = b
    · subst hi
      rw [Function.update_same, List.find?_append]
      cases hq : List.find? q (kb i) with
      | some y => rfl
      | none => simp [List.find?, hx]
    · rw [Function.update_noteq hi]

/-- C20: after `KBucket.SetValue k v`, `KBucket.GetValue k` returns the
non-nil result `k`, and `KBucket.GetValue k'` for every other key `k'`
returns what it returned before. -/
theorem KBucket_roundtrip (kb : KBucket) (k v : List Byte) :
    (kb.SetValue k v).GetValue k = some k ∧
      ∀ k', k' ≠ k → (kb.SetValue k v).GetValue k' = kb.GetValue k' := by
  constructor
  · have hs : ((kb.SetValue k v).GetValue k).isSome :=
      (GetValue_isSome _ _).2 ⟨bucketOf k, _, mem_SetValue_self kb k v, rfl⟩
    obtain ⟨w, hw⟩ := Option.isSome_iff_exists.1 hs
    rw [hw, GetValue_eq_some _ _ _ hw]
  · intro k' hk
    unfold KBucket.GetValue KBucket.allNodes KBucket.SetValue
    rw [find?_flatMap_update]
    simpa [Peer.NodeID] using fun h => hk h.symm

theorem findNode_found_iff_witness :
    (KBucket.empty.SetValue (hash hello) hello).findNode (0 + 1) (hash hello) (fun _ => 0) =
      some (([Peer.mk (hash hello) KBucket.empty], true), fun _ => 0) :=
  (findNode_found_iff (KBucket.empty.SetValue (hash hello) hello) (hash hello)).1
    (Peer.mk (hash hello) KBucket.empty)
    (by simp [KBucket.SetValue, KBucket.empty, Peer.NodeID]) 0 (fun _ => 0)

theorem depth_mk (id : List Byte) (kb : KBucket) : (Peer.mk id kb).depth = 1 + kb.nesting := by
  rw [Peer.depth]; rfl

theorem depthList_le (p : Peer) : ∀ l : List Peer, p ∈ l → p.depth ≤ depthList l := by
  intro l
  induction l with
  | nil => intro h; cases h
  | cons q qs ih =>
    intro h
    rw [depthList]
    rcases List.mem_cons.1 h with h | h
    · subst h; exact le_max_left _ _
    · exact le_trans (ih h) (le_max_right _ _)

theorem foldl_max_le (f : Fin 160 → Nat) : ∀ (l : List (Fin 160)) (acc : Nat),
    acc ≤ l.foldl (fun a i => max a (f i)) acc ∧
      ∀ i ∈ l, f i ≤ l.foldl (fun a i => max a (f i)) acc := by
  intro l
  induction l with
  | nil => intro acc; exact ⟨le_refl _, fun i hi => by cases hi⟩
  | cons j js ih =>
    intro acc
    rw [List.foldl_cons]
    obtain ⟨h1, h2⟩ := ih (max acc (f j))
    refine ⟨le_trans (le_max_left _ _) h1, fun i hi => ?_⟩
    rcases List.mem_cons.1 hi with hi | hi
    · subst hi; exact le_trans (le_max_right _ _) h1
    · exact h2 i hi

theorem depth_lt_nesting (kb : KBucket) (i : Fin 160) (c : Peer) (hc : c ∈ kb i) :
    c.KBucket.nesting + 1 ≤ kb.nesting := by
  have h1 : c.depth ≤ depthList (kb i) := depthList_le c _ hc
  have h2 : depthList (kb i) ≤ kb.nesting :=
    (foldl_max_le (fun i => depthList (kb i)) (List.finRange 160) 0).2 i (List.mem_finRange i)
  have h3 : c.depth = 1 + c.KBucket.nesting := by
    cases c with
    | mk id t => exact depth_mk id t
  omega

/-! ## Termination of findNode on placed tables -/

theorem probeLoop_succ (find : List Byte → Rand → Option ((List Peer × Bool) × Rand))
    (kb : KBucket) (todo : Nat) (acc : List Peer) (g : Rand) :
    probeLoop find kb (todo + 1) acc g =
      if h : (kb ⟨(Intn 160 g).1, Nat.mod_lt _ (by decide)⟩).length > 0 then
        match find ((kb ⟨(Intn 160 g).1, Nat.mod_lt _ (by decide)⟩).get
            ⟨(Intn (kb ⟨(Intn 160 g).1, Nat.mod_lt _ (by decide)⟩).length (Intn 160 g).2).1,
              Nat.mod_lt _ h⟩).NodeID
          (Intn (kb ⟨(Intn 160 g).1, Nat.mod_lt _ (by decide)⟩).length (Intn 160 g).2).2 with
        | none => none
        | some ((peers, found), g') =>
          probeLoop find kb todo (if found then acc ++ peers else acc) g'
      else probeLoop find kb todo acc (Intn 160 g).2 := rfl

theorem placed_find (kb : KBucket) (hP : Placed kb) (i : Fin 160) (c : Peer) (hc : c ∈ kb i) :
    ∃ p, (kb (bucketOf c.NodeID)).find? (fun peer => peer.NodeID == c.NodeID) = some p ∧
      p ∈ kb i := by
  have hi : bucketOf c.NodeID = i := Fin.ext (hP i c hc)
  rw [hi]
  obtain ⟨p, hp⟩ := (find?_isSome_iff (kb i) c.NodeID).2 ⟨c, hc, rfl⟩
  exact ⟨p, hp, List.mem_of_find?_eq_some hp⟩

theorem probeLoop_placed (kb : KBucket) (hP : Placed kb) :
    ∀ (todo : Nat) (acc : List Peer) (g : Rand), ∃ l g',
      (∀ n, probeLoop (fun k g'' => kb.findNode (n + 1) k g'') kb todo acc g = some (l, g')) ∧
        l.length ≤ acc.length + todo ∧ ∀ p ∈ l, p ∈ acc ∨ ∃ i, p ∈ kb i := by
  intro todo
  induction todo with
  | zero =>
    intro acc g
    exact ⟨acc, g, fun _ => rfl, le_refl _, fun p hp => Or.inl hp⟩
  | succ t ih =>
    intro acc g
    by_cases h : (kb ⟨(Intn 160 g).1, Nat.mod_lt _ (by decide)⟩).length > 0
    · obtain ⟨p, hp, hmem⟩ := placed_find kb hP _ _
        (List.get_mem (kb ⟨(Intn 160 g).1, Nat.mod_lt _ (by decide)⟩)
          (Intn (kb ⟨(Intn 160 g).1, Nat.mod_lt _ (by decide)⟩).length (Intn 160 g).2).1
          (Nat.mod_lt _ h))
      obtain ⟨l, g', hl, hlen, hsub⟩ := ih (acc ++ [p])
        (Intn (kb ⟨(Intn 160 g).1, Nat.mod_lt _ (by decide)⟩).length (Intn 160 g).2).2
      refine ⟨l, g', fun n => ?_, ?_, ?_⟩
      · rw [probeLoop_succ, dif_pos h, findNode_hit n kb _ _ p hp]
        exact hl n
      · simp only [List.length_append, List.length_singleton] at hlen
        omega
      · intro q hq
        rcases hsub q hq with hq | hq
        · rcases List.mem_append.1 hq with hq | hq
          · exact Or.inl hq
          · rw [List.mem_singleton] at hq
            subst hq
            exact Or.inr ⟨_, hmem⟩
        · exact Or.inr hq
    · obtain ⟨l, g', hl, hlen, hsub⟩ := ih acc (Intn 160 g).2
      refine ⟨l, g', fun n => ?_, by omega, hsub⟩
      rw [probeLoop_succ, dif_neg h]
      exact hl n

theorem findNode_placed (kb : KBucket) (hP : Placed kb) (k : List Byte) (g : Rand) :
    ∃ l found g', (∀ n, kb.findNode (n + 2) k g = some ((l, found), g')) ∧
      (found = true ↔ ∃ c ∈ kb (bucketOf k), c.NodeID = k) ∧
      l.length ≤ 2 ∧ ∀ p ∈ l, ∃ i, p ∈ kb i := by
  cases hf : (kb (bucketOf k)).find? (fun peer => peer.NodeID == k) with
  | some p =>
    refine ⟨[p], true, g, fun n => findNode_hit (n + 1) kb k g p hf,
      ⟨fun _ => (find?_isSome_iff _ _).1 ⟨p, hf⟩, fun _ => rfl⟩, by simp, ?_⟩
    intro q hq
    rw [List.mem_singleton] at hq
    subst hq
    exact ⟨_, List.mem_of_find?_eq_some hf⟩
  | none =>
    obtain ⟨l, g', hl, hlen, hsub⟩ := probeLoop_placed kb hP 2 [] g
    refine ⟨l, false, g', fun n => ?_, ⟨fun hc => Bool.noConfusion hc, fun hc => ?_⟩,
      by simpa using hlen, ?_⟩
    · rw [findNode_miss (n + 1) kb k g hf, hl n]
      rfl
    · obtain ⟨p, hp⟩ := (find?_isSome_iff _ _).2 hc
      rw [hf] at hp
      cases hp
    · intro q hq
      rcases hsub q hq with hq | hq
      · cases hq
      · exact hq

/-- C14: on a table reached by `insertNode` and store operations,
`findNode k` terminates for every key and every random stream: fuel 2 is
enough (the call itself and one level of recursion, each probe being
answered by a direct hit) and more fuel gives the same result.  The result
has `found = true` exactly when the key is in its bucket, so `false` for a
key absent from the table, and holds at most 2 contacts, all of the table. -/
theorem findNode_terminates (kb : KBucket) (h : ReachableKV kb) (k : List Byte) (g : Rand) :
    ∃ l found g', (∀ n, kb.findNode (n + 2) k g = some ((l, found), g')) ∧
      (found = true ↔ ∃ c ∈ kb (bucketOf k), c.NodeID = k) ∧
      ((∀ i : Fin 160, ∀ c ∈ kb i, c.NodeID ≠ k) → found = false) ∧
      l.length ≤ 2 ∧ ∀ p ∈ l, ∃ i, p ∈ kb i := by
  obtain ⟨l, found, g', h1, h2, h3, h4⟩ := findNode_placed kb (placed_of_reachableKV kb h) k g
  refine ⟨l, found, g', h1, h2, fun habs => ?_, h3, h4⟩
  cases found with
  | false => rfl
  | true =>
    obtain ⟨c, hc, hk⟩ := h2.1 rfl
    exact absurd hk (habs _ c hc)

theorem findNode_terminates_witness :
    ∃ l found g', (∀ n, peerABC.KBucket.findNode (n + 2) (hash hello) (fun _ => 0) =
        some ((l, found), g')) ∧
      (found = true ↔ ∃ c ∈ peerABC.KBucket (bucketOf (hash hello)), c.NodeID = hash hello) ∧
      ((∀ i : Fin 160, ∀ c ∈ peerABC.KBucket i, c.NodeID ≠ hash hello) → found = false) ∧
      l.length ≤ 2 ∧ ∀ p ∈ l, ∃ i, p ∈ peerABC.KBucket i :=
  findNode_terminates peerABC.KBucket
    (ReachableKV.insert _ peerC (ReachableKV.insert _ peerB ReachableKV.empty))
    (hash hello) (fun _ => 0)

/-! ## Fetch of an absent key -/

theorem nesting_zero_empty (kb : KBucket) (h : kb.nesting = 0) (i : Fin 160) : kb i = [] := by
  cases hb : kb i with
  | nil => rfl
  | cons c cs =>
    have := depth_lt_nesting kb i c (by rw [hb]; exact List.mem_cons_self _ _)
    omega

theorem probeLoop_empty (find : List Byte → Rand → Option ((List Peer × Bool) × Rand))
    (kb : KBucket) (he : ∀ i, kb i = []) :
    ∀ (todo : Nat) (acc : List Peer) (g : Rand), ∃ g', probeLoop find kb todo acc g =
      some (acc, g') := by
  intro todo
  induction todo with
  | zero => intro acc g; exact ⟨g, rfl⟩
  | succ t ih =>
    intro acc g
    obtain ⟨g', hg⟩ := ih acc (Intn 160 g).2
    refine ⟨g', ?_⟩
    rw [probeLoop_succ, dif_neg (by rw [he]; simp)]
    exact hg

theorem findNode_empty (kb : KBucket) (he : ∀ i, kb i = []) (n : Nat) (k : List Byte)
    (g : Rand) : ∃ g', kb.findNode (n + 1) k g = some (([], false), g') := by
  obtain ⟨g', hg⟩ := probeLoop_empty (fun k' g'' => kb.findNode n k' g'') kb he 2 [] g
  refine ⟨g', ?_⟩
  rw [findNode_miss n kb k g (by rw [he]; rfl), hg]
  rfl

theorem fetchLoop_none (get : Peer → Rand → Option (Option (List Byte) × Rand)) :
    ∀ (l : List Peer), (∀ c ∈ l, ∀ g, ∃ g', get c g = some (none, g')) →
      ∀ g, ∃ g', fetchLoop get l g = some (none, g') := by
  intro l
  induction l with
  | nil => intro _ g; exact ⟨g, rfl⟩
  | cons c cs ih =>
    intro h g
    obtain ⟨g1, h1⟩ := h c (List.mem_cons_self _ _) g
    obtain ⟨g2, h2⟩ := ih (fun c' hc' => h c' (List.mem_cons_of_mem _ hc')) g1
    refine ⟨g2, ?_⟩
    rw [fetchLoop, h1]
    exact h2

theorem GetValue_step (fuel : Nat) (P : Peer) (k : List Byte) (g : Rand)
    (hg : P.KBucket.GetValue k = none) (l : List Peer) (found : Bool) (g1 : Rand)
    (hf : P.KBucket.findNode fuel k g = some ((l, found), g1)) :
    Peer.GetValue (fuel + 1) P k g =
      fetchLoop (fun p g'' => Peer.GetValue fuel p k g'') l g1 := by
  simp [Peer.GetValue, hg, hf]

theorem GetValue_hereditary (k : List Byte) (kb : KBucket) (h : Hereditary k kb) :
    ∀ (id : List Byte) (fuel : Nat) (g : Rand), kb.nesting + 2 ≤ fuel →
      ∃ g', Peer.GetValue fuel (Peer.mk id kb) k g = some (none, g') := by
  induction h with
  | mk kb hr habs _ ih =>
    intro id fuel g hfuel
    obtain ⟨f, rfl⟩ : ∃ f, fuel = f + 1 := ⟨fuel - 1, by omega⟩
    have hg : (Peer.mk id kb).KBucket.GetValue k = none := (GetValue_eq_none kb k).2 habs
    by_cases hn : kb.nesting = 0
    · obtain ⟨f', rfl⟩ : ∃ f', f = f' + 1 := ⟨f - 1, by omega⟩
      obtain ⟨g1, h1⟩ := findNode_empty kb (nesting_zero_empty kb hn) f' k g
      rw [GetValue_step (f' + 1) _ k g hg [] false g1 h1]
      exact ⟨g1, rfl⟩
    · obtain ⟨f', rfl⟩ : ∃ f', f = f' + 2 := ⟨f - 2, by omega⟩
      obtain ⟨l, found, g1, h1, _, _, hsub⟩ :=
        findNode_placed kb (placed_of_reachableKV kb hr) k g
      rw [GetValue_step (f' + 2) _ k g hg l found g1 (h1 f')]
      apply fetchLoop_none
      intro c hc g2
      obtain ⟨i, hi⟩ := hsub c hc
      have hd := depth_lt_nesting kb i c hi
      have := ih i c hi c.NodeID (f' + 2) g2 (by omega)
      cases c with
      | mk cid ckb => exact this

/-- C15: when the table of `P` and, hereditarily, the tables of all
contacts nested in it are reachable and hold no contact with NodeID `k`,
`Peer.GetValue k` returns `nil` for every random stream, with any fuel of
at least the nesting depth of the table plus 2: the call on `P`, at most
one hop per level of nesting, and the call of `findNode` at the bottom. -/
theorem GetValue_absent (k : List Byte) (P : Peer) (h : Hereditary k P.KBucket) :
    ∀ (fuel : Nat) (g : Rand), P.KBucket.nesting + 2 ≤ fuel →
      ∃ g', Peer.GetValue fuel P k g = some (none, g') := by
  intro fuel g hfuel
  cases P with
  | mk id kb => exact GetValue_hereditary k kb h id fuel g hfuel

theorem peerABC_hereditary : Hereditary (hash hello) peerABC.KBucket := by
  have hfresh : ∀ i, ∀ p ∈ peerABC.KBucket i,
      p.NodeID.length = 1 ∧ p.KBucket = KBucket.empty := by
    intro i p hp
    rcases peerABC_contacts i p hp with h | h <;> subst h <;> exact ⟨rfl, rfl⟩
  refine Hereditary.mk _
    (ReachableKV.insert _ peerC (ReachableKV.insert _ peerB ReachableKV.empty)) ?_ ?_
  · intro i c hc h
    have := congrArg List.length h
    rw [hash_length, (hfresh i c hc).1] at this
    cases this
  · intro i c hc
    rw [(hfresh i c hc).2]
    exact Hereditary.mk _ ReachableKV.empty (fun i c hc => by cases hc)
      (fun i c hc => by cases hc)

theorem GetValue_absent_witness :
    ∃ g', Peer.GetValue (peerABC.KBucket.nesting + 2) peerABC (hash hello) (fun _ => 0) =
      some (none, g') :=
  GetValue_absent (hash hello) peerABC peerABC_hereditary _ (fun _ => 0) (le_refl _)

/-! ## findClosestPeers against its description -/

theorem at?_of_range (kb : KBucket) (j : Int) (h : 0 ≤ j ∧ j < 160) :
    kb.at? j = some (kb ⟨j.toNat, by omega⟩) := dif_pos h

theorem at?_ring (kb : KBucket) (m : Int) (h : 0 ≤ m) :
    kb.at? (Int.tmod m 160) = some (ringBucket kb m) := by
  rw [Int.tmod_eq_emod h (by decide)]
  rw [at?_of_range kb (m % 160) (by omega)]
  rfl

theorem ringBucket_add (kb : KBucket) (m : Int) : ringBucket kb (m + 160) = ringBucket kb m := by
  unfold ringBucket
  congr 1
  apply Fin.ext
  show ((m + 160) % 160).toNat = (m % 160).toNat
  omega

theorem closestLoop_eq_spec (kb : KBucket) (idx n : Nat) :
    ∀ (todo i : Nat) (S : List Peer), 1 ≤ i → i + todo ≤ idx + 161 →
      closestLoop kb idx n todo i S = some (specExpand kb idx n todo i S) := by
  intro todo
  induction todo with
  | zero => intro i S _ _; rfl
  | succ t ih =>
    intro i S hi hle
    have hp : kb.at? (Int.tmod ((idx : Int) - (i : Int) + 160) 160) =
        some (ringBucket kb ((idx : Int) - i)) := by
      rw [at?_ring kb _ (by omega), ringBucket_add]
    have hn : kb.at? (Int.tmod ((idx : Int) + (i : Int)) 160) =
        some (ringBucket kb ((idx : Int) + i)) := at?_ring kb _ (by omega)
    rw [closestLoop, hp, hn, specExpand]
    simp only [List.append_assoc]
    have hcond : ((S ++ (ringBucket kb ((idx : Int) - i) ++
        ringBucket kb ((idx : Int) + i))).length : Int) ≥ (n : Int) ↔
        n ≤ (S ++ ringPair kb idx i).length := by
      unfold ringPair; omega
    by_cases hc : n ≤ (S ++ ringPair kb idx i).length
    · rw [if_pos (hcond.2 hc), if_pos hc]; rfl
    · rw [if_neg (fun h => hc (hcond.1 h)), if_neg hc]
      have := ih (i + 1) (S ++ ringPair kb idx i) (by omega) (by omega)
      rw [← this]
      simp [ringPair]

/-- As long as the loop stays within offsets `idx + 160` (always so for
`n ≤ 161`), the code returns the result that the description gives. -/
theorem findClosestPeers_eq_spec (kb : KBucket) (key : List Byte) (n : Nat)
    (hn : n ≤ getBucketIndex key + 161) :
    kb.findClosestPeers key n = some (specClosest kb key n) := by
  unfold KBucket.findClosestPeers specClosest specCollected
  rw [if_neg (by omega)]
  simp only [Int.toNat_ofNat]
  by_cases hlen : (kb (bucketOf key)).length < n
  · have h1 := closestLoop_eq_spec kb (getBucketIndex key) n (n - 1) 1 (kb (bucketOf key))
      (le_refl _) (by omega)
    rw [Nat.cast_one] at h1
    rw [if_pos (by omega), if_pos hlen, h1]
    rfl
  · rw [if_neg (by omega), if_neg hlen]
    rfl

theorem closestLoop_empty_panics (idx n : Nat) (hn : 1 ≤ n) :
    ∀ (todo i : Nat), 1 ≤ i → i ≤ idx + 161 → idx + 161 < i + todo →
      closestLoop KBucket.empty idx n todo i [] = none := by
  intro todo
  induction todo with
  | zero => intro i _ h1 h2; omega
  | succ t ih =>
    intro i hi h1 h2
    by_cases hlast : i = idx + 161
    · have hp : KBucket.empty.at? (Int.tmod ((idx : Int) - (i : Int) + 160) 160) = none := by
        have : (idx : Int) - (i : Int) + 160 = -1 := by omega
        rw [this]
        rfl
      rw [closestLoop, hp]
    · have hp : KBucket.empty.at? (Int.tmod ((idx : Int) - (i : Int) + 160) 160) =
          some [] := at?_ring KBucket.empty _ (by omega)
      have hq : KBucket.empty.at? (Int.tmod ((idx : Int) + (i : Int)) 160) = some [] :=
        at?_ring KBucket.empty _ (by omega)
      rw [closestLoop, hp, hq]
      simp only [List.append_nil, List.length_nil]
      rw [if_neg (by omega)]
      have := ih (i + 1) (by omega) (by omega) (by omega)
      rw [← this]
      simp

theorem findClosestPeers_empty_panics (key : List Byte) (n : Nat)
    (hn : getBucketIndex key + 162 ≤ n) : KBucket.empty.findClosestPeers key n = none := by
  unfold KBucket.findClosestPeers
  rw [if_neg (by omega)]
  simp only [Int.toNat_ofNat]
  have h1 := closestLoop_empty_panics (getBucketIndex key) n (by omega) (n - 1) 1 (le_refl _)
    (by omega) (by omega)
  rw [Nat.cast_one] at h1
  have h0 : (KBucket.empty (bucketOf key)).length = 0 := rfl
  rw [if_pos (by rw [h0]; omega)]
  show Option.map _ (closestLoop KBucket.empty _ _ (n - 1) 1 []) = none
  rw [h1]
  rfl

theorem specClosest_empty_one (key : List Byte) :
    specClosest KBucket.empty key 1 = [Peer.zero] := by
  simp [specClosest, specCollected, specExpand, KBucket.empty]

/-- C12, at the failing inputs: on the empty table, for every key,
`findClosestPeers key 1` returns one entry, the zero-valued peer, which is
no contact of the table (the table has none), and `findClosestPeers key
322` fails with an index out of range. -/
theorem findClosestPeers_on_empty_table (key : List Byte) :
    KBucket.empty.findClosestPeers key 1 = some [Peer.zero] ∧
      (∀ i : Fin 160, Peer.zero ∉ KBucket.empty i) ∧
      KBucket.empty.findClosestPeers key 322 = none := by
  refine ⟨?_, ?_, ?_⟩
  · have := findClosestPeers_eq_spec KBucket.empty key 1 (by omega)
    rw [specClosest_empty_one] at this
    exact this
  · intro i h
    cases h
  · exact findClosestPeers_empty_panics key 322 (by have := getBucketIndex_lt key; omega)

/-- C19, at the failing input, with the part of the claim that holds: for
every count up to 161 the code returns exactly the list the claim
describes (`specClosest`), but on the empty table with key "hello" and
count 322 the call fails with an index out of range at offset
`getBucketIndex key + 161`, where the claim says it does not panic. -/
theorem findClosestPeers_exact :
    (∀ (kb : KBucket) (key : List Byte) (n : Nat), n ≤ 161 →
        kb.findClosestPeers key n = some (specClosest kb key n)) ∧
      KBucket.empty.findClosestPeers hello 322 = none :=
  ⟨fun kb key n hn => findClosestPeers_eq_spec kb key n (by omega),
    findClosestPeers_empty_panics hello 322 (by have := getBucketIndex_lt hello; omega)⟩

/-! ## How far findClosestPeers expands -/

theorem specExpand_mem (kb : KBucket) (idx n : Nat) :
    ∀ (todo i : Nat) (S : List Peer), ∀ p ∈ specExpand kb idx n todo i S,
      p ∈ S ∨ ∃ j, p ∈ kb j := by
  intro todo
  induction todo with
  | zero => intro i S p hp; exact Or.inl hp
  | succ t ih =>
    intro i S p hp
    have hpair : ∀ q ∈ S ++ ringPair kb idx i, q ∈ S ∨ ∃ j, q ∈ kb j := by
      intro q hq
      rcases List.mem_append.1 hq with hq | hq
      · exact Or.inl hq
      · rcases List.mem_append.1 hq with hq | hq
        · exact Or.inr ⟨_, hq⟩
        · exact Or.inr ⟨_, hq⟩
    rw [specExpand] at hp
    split_ifs at hp
    · exact hpair p hp
    · rcases ih _ _ p hp with h | h
      · exact hpair p h
      · exact Or.inr h

theorem specExpand_full (kb : KBucket) (idx n : Nat) :
    ∀ (todo i : Nat) (S : List Peer), n ≤ (specExpand kb idx n todo i S).length ∨
      specExpand kb idx n todo i S = S ++ visited kb idx todo i := by
  intro todo
  induction todo with
  | zero => intro i S; exact Or.inr (by simp [specExpand, visited])
  | succ t ih =>
    intro i S
    rw [specExpand]
    split_ifs with h
    · exact Or.inl h
    · rcases ih (i + 1) (S ++ ringPair kb idx i) with h' | h'
      · exact Or.inl h'
      · exact Or.inr (by rw [h', visited, List.append_assoc])

theorem specCollected_mem (kb : KBucket) (key : List Byte) (n : Nat) :
    ∀ p ∈ specCollected kb key n, ∃ j, p ∈ kb j := by
  intro p hp
  unfold specCollected at hp
  split_ifs at hp
  · rcases specExpand_mem kb _ n _ _ _ p hp with h | h
    · exact ⟨_, h⟩
    · exact h
  · exact ⟨_, hp⟩

theorem specCollected_full (kb : KBucket) (key : List Byte) (n : Nat)
    (h : n ≤ (kb (bucketOf key) ++ visited kb (getBucketIndex key) (n - 1) 1).length) :
    n ≤ (specCollected kb key n).length := by
  unfold specCollected
  split_ifs with hlen
  · rcases specExpand_full kb (getBucketIndex key) n (n - 1) 1 (kb (bucketOf key)) with h' | h'
    · exact h'
    · rw [h']; exact h
  · omega

theorem specClosest_length (kb : KBucket) (key : List Byte) (n : Nat) :
    (specClosest kb key n).length = n := by
  simp [specClosest]
  omega

theorem peerA_bucket : getBucketIndex [0x41] = 26 := by decide!

theorem pairTable_mem (i : Fin 160) (c : Peer) (h : c ∈ pairTable i) :
    c = Peer.mk (idOf 93) KBucket.empty ∨ c = Peer.mk (idOf 379) KBucket.empty := by
  rcases mem_insertNode _ _ _ _ h with h | h
  · rcases mem_insertNode _ _ _ _ h with h | h
    · cases h
    · exact Or.inl h
  · exact Or.inr h

theorem pairTable_other (i : Fin 160) (hi : i.val ≠ 8) : pairTable i = [] := by
  apply List.eq_nil_iff_forall_not_mem.2
  intro c hc
  have hplaced := placed_insertNode _ (Peer.mk (idOf 379) KBucket.empty)
    (placed_insertNode _ (Peer.mk (idOf 93) KBucket.empty) placed_empty) i c hc
  rcases pairTable_mem i c hc with h | h
  · subst h
    have := crowdNums_bucket 93 (by simp [crowdNums])
    exact hi (by rw [← hplaced]; exact this)
  · subst h
    have := crowdNums_bucket 379 (by simp [crowdNums])
    exact hi (by rw [← hplaced]; exact this)

theorem pairTable_bucket :
    pairTable (bucketOf (idOf 93)) =
      [Peer.mk (idOf 93) KBucket.empty, Peer.mk (idOf 379) KBucket.empty] := by
  have h := foldl_insertNode (bucketOf (idOf 93))
    [Peer.mk (idOf 93) KBucket.empty, Peer.mk (idOf 379) KBucket.empty] KBucket.empty
    (by
      intro p hp
      rcases List.mem_cons.1 hp with hp | hp
      · subst hp; rfl
      · rw [List.mem_singleton] at hp
        subst hp
        apply Fin.ext
        show getBucketIndex (idOf 379) = getBucketIndex (idOf 93)
        rw [crowdNums_bucket 379 (by simp [crowdNums]),
          crowdNums_bucket 93 (by simp [crowdNums])])
    (by
      show (List.map Peer.NodeID ([] ++ [Peer.mk (idOf 93) KBucket.empty,
        Peer.mk (idOf 379) KBucket.empty])).Nodup
      simp [Peer.NodeID, idOf])
    (by
      show ([] : List Peer).length + 2 ≤ 100
      simp)
  exact h

/-- C13, amended: for `1 ≤ n ≤ 161`, when bucket `idx` and the pairs of
buckets at offsets `-i`, `+i` (mod 160) for `i = 1 .. n-1` hold at least
`n` contacts (counted at each visit), the call returns the first `n`
contacts collected in that order of expansion (`specCollected`, which
stops at the first offset with `n` contacts collected and never goes
beyond offset `n-1`): a list of `n` contacts of the table. -/
theorem findClosestPeers_expands (kb : KBucket) (key : List Byte) (n : Nat)
    (h1 : 1 ≤ n) (h2 : n ≤ 161)
    (hv : n ≤ (kb (bucketOf key) ++ visited kb (getBucketIndex key) (n - 1) 1).length) :
    kb.findClosestPeers key n = some ((specCollected kb key n).take n) ∧
      ((specCollected kb key n).take n).length = n ∧
      ∀ p ∈ (specCollected kb key n).take n, ∃ i, p ∈ kb i := by
  have _ := h1
  have hfull := specCollected_full kb key n hv
  refine ⟨?_, ?_, fun p hp => specCollected_mem kb key n p (List.mem_of_mem_take hp)⟩
  · rw [findClosestPeers_eq_spec kb key n (by omega), specClosest,
      List.take_append_of_le_length hfull]
  · rw [List.length_take]
    omega

/-- C13 fails as stated: the table `pairTable` holds two contacts (both in
bucket 8), yet for the key "A" of bucket 26 `findClosestPeers key 2` visits
buckets 26, 25 and 27 only and returns two zero-valued peers, none of them
a contact of the table. -/
theorem findClosestPeers_stops_early :
    pairTable (bucketOf (idOf 93)) =
        [Peer.mk (idOf 93) KBucket.empty, Peer.mk (idOf 379) KBucket.empty] ∧
      pairTable.findClosestPeers [0x41] 2 = some [Peer.zero, Peer.zero] ∧
      ¬ ∃ i : Fin 160, Peer.zero ∈ pairTable i := by
  refine ⟨pairTable_bucket, ?_, ?_⟩
  · have hspec := findClosestPeers_eq_spec pairTable [0x41] 2 (by omega)
    rw [Nat.cast_ofNat] at hspec
    rw [hspec]
    have e0 : pairTable (bucketOf [0x41]) = [] :=
      pairTable_other _ (by show getBucketIndex [0x41] ≠ 8; rw [peerA_bucket]; decide)
    have e1 : ringPair pairTable (getBucketIndex [0x41]) 1 = [] := by
      rw [peerA_bucket]
      unfold ringPair ringBucket
      rw [pairTable_other _ (by decide), pairTable_other _ (by decide)]
      rfl
    simp [specClosest, specCollected, specExpand, e0, e1]
  · rintro ⟨i, hi⟩
    rcases pairTable_mem i _ hi with h | h
    · have := congrArg Peer.NodeID h
      simp [Peer.zero, Peer.NodeID, idOf] at this
    · have := congrArg Peer.NodeID h
      simp [Peer.zero, Peer.NodeID, idOf] at this

theorem near25 : getBucketIndex (idOf 96) = 25 := by decide!

theorem near27 : getBucketIndex (idOf 57) = 27 := by decide!

theorem nearTable_at (i : Fin 160) :
    (i.val = 25 → nearTable i = [Peer.mk (idOf 96) KBucket.empty]) ∧
      (i.val = 27 → nearTable i = [Peer.mk (idOf 57) KBucket.empty]) ∧
      (i.val ≠ 25 → i.val ≠ 27 → nearTable i = []) := by
  have b25 : (bucketOf (Peer.mk (idOf 96) KBucket.empty).NodeID).val = 25 := near25
  have b27 : (bucketOf (Peer.mk (idOf 57) KBucket.empty).NodeID).val = 27 := near27
  have hne : bucketOf (Peer.mk (idOf 57) KBucket.empty).NodeID ≠
      bucketOf (Peer.mk (idOf 96) KBucket.empty).NodeID := by
    intro h
    have := congrArg Fin.val h
    omega
  have e1 : KBucket.empty.insertNode (Peer.mk (idOf 96) KBucket.empty) =
      Function.update KBucket.empty (bucketOf (Peer.mk (idOf 96) KBucket.empty).NodeID)
        [Peer.mk (idOf 96) KBucket.empty] := by
    rw [insertNode_eq]
    simp [KBucket.empty]
  have e2 : nearTable = Function.update
      (Function.update KBucket.empty (bucketOf (Peer.mk (idOf 96) KBucket.empty).NodeID)
        [Peer.mk (idOf 96) KBucket.empty])
      (bucketOf (Peer.mk (idOf 57) KBucket.empty).NodeID)
      [Peer.mk (idOf 57) KBucket.empty] := by
    unfold nearTable
    rw [e1, insertNode_eq, Function.update_noteq hne]
    simp [KBucket.empty]
  rw [e2]
  refine ⟨fun h => ?_, fun h => ?_, fun h h' => ?_⟩
  · have h1 : i ≠ bucketOf (Peer.mk (idOf 57) KBucket.empty).NodeID := by
      intro e; rw [e] at h; omega
    have h2 : i = bucketOf (Peer.mk (idOf 96) KBucket.empty).NodeID := Fin.ext (by omega)
    rw [Function.update_noteq h1, h2, Function.update_same]
  · have h2 : i = bucketOf (Peer.mk (idOf 57) KBucket.empty).NodeID := Fin.ext (by omega)
    rw [h2, Function.update_same]
  · have h1 : i ≠ bucketOf (Peer.mk (idOf 57) KBucket.empty).NodeID := by
      intro e; rw [e] at h'; omega
    have h2 : i ≠ bucketOf (Peer.mk (idOf 96) KBucket.empty).NodeID := by
      intro e; rw [e] at h; omega
    rw [Function.update_noteq h1, Function.update_noteq h2]
    rfl

theorem nearTable_own : nearTable (bucketOf [0x41]) = [] :=
  (nearTable_at _).2.2
    (by show getBucketIndex [0x41] ≠ 25; rw [peerA_bucket]; decide)
    (by show getBucketIndex [0x41] ≠ 27; rw [peerA_bucket]; decide)

theorem nearTable_pair :
    ringPair nearTable (getBucketIndex [0x41]) 1 =
      [Peer.mk (idOf 96) KBucket.empty, Peer.mk (idOf 57) KBucket.empty] := by
  rw [peerA_bucket]
  unfold ringPair ringBucket
  rw [(nearTable_at _).1 (by decide), (nearTable_at _).2.1 (by decide)]
  rfl

theorem nearTable_collected :
    specCollected nearTable [0x41] 2 =
      [Peer.mk (idOf 96) KBucket.empty, Peer.mk (idOf 57) KBucket.empty] := by
  simp [specCollected, specExpand, nearTable_own, nearTable_pair]

theorem findClosestPeers_expands_witness :
    (nearTable (bucketOf [0x41])).length < 2 ∧
      2 ≤ (nearTable (bucketOf [0x41]) ++
        visited nearTable (getBucketIndex [0x41]) (2 - 1) 1).length ∧
      specCollected nearTable [0x41] 2 =
        [Peer.mk (idOf 96) KBucket.empty, Peer.mk (idOf 57) KBucket.empty] ∧
      (nearTable.findClosestPeers [0x41] 2 =
          some ((specCollected nearTable [0x41] 2).take 2) ∧
        ((specCollected nearTable [0x41] 2).take 2).length = 2 ∧
        ∀ p ∈ (specCollected nearTable [0x41] 2).take 2, ∃ i, p ∈ nearTable i) :=
  have hv : 2 ≤ (nearTable (bucketOf [0x41]) ++
      visited nearTable (getBucketIndex [0x41]) (2 - 1) 1).length := by
    rw [nearTable_own]
    simp [visited, nearTable_pair]
  ⟨by rw [nearTable_own]; decide, hv, nearTable_collected,
    findClosestPeers_expands nearTable [0x41] 2 (by decide) (by decide) hv⟩

/-! ## The no-duplicate rule and shared backing arrays -/

/-- C10, at the failing input, on the slice-level model: every call of
the run is an `insertNode` or a `Peer.SetValue` that returns `true`.  After
the store on `P` its bucket 8 shows seven different NodeIDs; the store on
`q` then replicates into a copy of `P` that shows five contacts of the same
backing array, and the copy's append writes the key over cell 5: bucket 8
of `P` shows the key twice. -/
theorem shared_array_duplicate :
    sharedRun = some (true,
      [idOf 93, idOf 379, idOf 445, idOf 476, idOf 492, idOf 804, hash hello], true,
      [idOf 93, idOf 379, idOf 445, idOf 476, idOf 492, hash hello, hash hello]) := by
  decide!

end DHT
